import Mathlib

/-!
Exact recovery of the constant coefficient of a quadratic (`solve_c.js`).

A shallow embedding of the arithmetic core of `src/solve_c.js` together with
machine-checked statements of its specification.

* JavaScript `BigInt` values are Lean `Int`s; BigInt `/` is truncating division
  (`Int.tdiv`) and BigInt `%` is the truncating remainder (`Int.tmod`).
* `die(msg)` ends the process; a function that may reach `die` returns
  `Except Err _`, one `Err` constructor per `die` call site.
* JavaScript strings are lists of code points (`String` / `List Char`).
-/

namespace SolveC

/-! ## Errors -/

/-- One constructor per `die` call of the arithmetic core, named after its message. -/
inductive Err where
  /-- Raised by `die('Empty value')`. -/
  | emptyValue
  /-- Raised by `die("Invalid digit '<ch>'")`. -/
  | invalidDigit
  /-- Raised by `die("Digit '<ch>' >= base <base>")`. -/
  | digitGeBase
  /-- Raised by `die('Division by zero in fraction')`. -/
  | divisionByZero
  /-- Raised by `die('Need at least 3 points')`. -/
  | needThreePoints
  /-- Raised by `die('All triples degenerate; cannot solve quadratic from points.')`. -/
  | allTriplesDegenerate
  /-- Raised by `die('Need at least two roots for a quadratic')`. -/
  | needTwoRoots
  deriving DecidableEq

/-! ## Fractions -/

/-- The object `{ num, den }` returned by `reduceFrac`. -/
structure Fraction where
  num : Int
  den : Int
  deriving DecidableEq

/-- The loop `while (b !== 0n) { const r = a % b; a = b; b = r; }` of `bgcd`,
returning the final value of `a`. -/
def bgcdLoop (a b : Int) : Int :=
  if b = 0 then a else bgcdLoop b (Int.tmod a b)
termination_by b.natAbs
decreasing_by
  rename_i h
  have hb : 0 < b.natAbs := Int.natAbs_pos.mpr h
  have key : (Int.tmod a b).natAbs = a.natAbs % b.natAbs := by
    cases a <;> cases b <;> simp [Int.tmod, Int.natAbs_neg] <;> norm_cast
  rw [key]
  exact Nat.mod_lt _ hb

/-- The function `bgcd(a, b)`: both arguments are replaced by their absolute values, then the
remainder loop runs. -/
def bgcd (a b : Int) : Int :=
  let a := if a < 0 then -a else a
  let b := if b < 0 then -b else b
  bgcdLoop a b

/-- The function `reduceFrac(num, den)`: `die` on a zero denominator, else the sign is moved
to the numerator and both parts are divided by `bgcd(num, den)`. -/
def reduceFrac (num den : Int) : Except Err Fraction :=
  if den = 0 then .error .divisionByZero
  else
    let num := if den < 0 then -num else num
    let den := if den < 0 then -den else den
    let g := bgcd num den
    .ok { num := Int.tdiv num g, den := Int.tdiv den g }

/-! ## Decoding digit strings -/

/-- The code points removed by `String.prototype.trim`: ECMAScript `WhiteSpace`
(TAB, VT, FF, SP, NBSP, ZWNBSP and category Zs) and `LineTerminator`
(LF, CR, LS, PS). -/
def isJsWhiteSpace (c : Char) : Bool :=
  let n := c.toNat
  n = 0x09 || n = 0x0A || n = 0x0B || n = 0x0C || n = 0x0D || n = 0x20 || n = 0xA0 ||
  n = 0x1680 || (0x2000 ≤ n && n ≤ 0x200A) || n = 0x2028 || n = 0x2029 || n = 0x202F ||
  n = 0x205F || n = 0x3000 || n = 0xFEFF

/-- The method `s.trim()`: white space is removed from both ends. -/
def jsTrim (s : List Char) : List Char :=
  ((s.dropWhile isJsWhiteSpace).reverse.dropWhile isJsWhiteSpace).reverse

/-- The lower-case form of one code point under `String.prototype.toLowerCase`, as far as
the decoder can observe it. `A`-`Z` go to `a`-`z`; the only other code points whose
lower-case form contains an ASCII character are U+212A KELVIN SIGN (to `k`) and U+0130
(to `i` followed by U+0307). Every other code point is kept as it is: its lower-case form,
like itself, is not ASCII, hence neither a sign nor a digit. -/
def jsToLowerChar (c : Char) : List Char :=
  if c.toNat = 0x212A then ['k']
  else if c.toNat = 0x0130 then ['i', Char.ofNat 0x0307]
  else [c.toLower]

/-- The method `s.toLowerCase()`, code point by code point. -/
def jsToLowerCase (s : List Char) : List Char :=
  s.flatMap jsToLowerChar

/-- The digit `d` computed for one character in the loop of `parseBigIntFromBase`, or the
`Invalid digit` failure. -/
def digitOf (ch : Char) : Except Err Nat :=
  if '0' ≤ ch ∧ ch ≤ '9' then .ok (ch.toNat - 48)
  else if 'a' ≤ ch ∧ ch ≤ 'z' then .ok (ch.toNat - 97 + 10)
  else .error .invalidDigit

/-- The loop `for (const ch of s)` of `parseBigIntFromBase`, started with accumulator `acc`. -/
def parseLoop (base : Nat) : Int → List Char → Except Err Int
  | acc, [] => .ok acc
  | acc, ch :: rest =>
    match digitOf ch with
    | .error e => .error e
    | .ok d =>
      if d ≥ base then .error .digitGeBase
      else parseLoop base (acc * (base : Int) + (d : Int)) rest

/-- The function `parseBigIntFromBase(strOrig, base)`: the text is trimmed and lower-cased,
the empty text is rejected, one leading sign is removed, and the digits are accumulated. -/
def parseBigIntFromBase (strOrig : String) (base : Nat) : Except Err Int :=
  let s := jsToLowerCase (jsTrim strOrig.toList)
  match s with
  | [] => .error .emptyValue
  | c :: rest =>
    let sign : Int := if c = '+' then 1 else if c = '-' then -1 else 1
    let s := if c = '+' then rest else if c = '-' then rest else c :: rest
    match parseLoop base 0 s with
    | .error e => .error e
    | .ok acc => .ok (sign * acc)

/-! ## Determinant -/

/-- The function `det3(m)` for the matrix with rows `[m11, m12, m13]`, `[m21, m22, m23]`,
`[m31, m32, m33]`. -/
def det3 (m : Fin 3 → Fin 3 → Int) : Int :=
  let m11 := m 0 0; let m12 := m 0 1; let m13 := m 0 2
  let m21 := m 1 0; let m22 := m 1 1; let m23 := m 1 2
  let m31 := m 2 0; let m32 := m 2 1; let m33 := m 2 2
  m11*m22*m33 + m12*m23*m31 + m13*m21*m32
    - m13*m22*m31 - m11*m23*m32 - m12*m21*m33

/-! ## Points, roots and the two solvers -/

/-- A sample point `{ x, y, k }`; `k` is the key it was loaded from. -/
structure Point where
  x : Int
  y : Int
  k : String
  deriving DecidableEq

/-- A root `{ r, k }`. -/
structure Root where
  r : Int
  k : String
  deriving DecidableEq

/-- The object `{ frac, used }` returned by `cFromThreePoints`. -/
structure FitResult where
  frac : Fraction
  used : List String
  deriving DecidableEq

/-- The body of the innermost loop of `cFromThreePoints` at indices `i`, `j`, `k`:
`none` when the loop goes on (`detA === 0n`), `some r` when the function leaves with `r`. -/
def tripleBody (points : List Point) (i j k : Nat) : Option (Except Err FitResult) :=
  match points[i]?, points[j]?, points[k]? with
  | some p1, some p2, some p3 =>
    let detA := det3 ![![p1.x*p1.x, p1.x, 1], ![p2.x*p2.x, p2.x, 1], ![p3.x*p3.x, p3.x, 1]]
    if detA ≠ 0 then
      let detAc := det3 ![![p1.x*p1.x, p1.x, p1.y], ![p2.x*p2.x, p2.x, p2.y],
                          ![p3.x*p3.x, p3.x, p3.y]]
      match reduceFrac detAc detA with
      | .error e => some (.error e)
      | .ok frac => some (.ok { frac := frac, used := [p1.k, p2.k, p3.k] })
    else none
  | _, _, _ => none

/-- The three nested loops of `cFromThreePoints`: `i` from `0`, `j` from `i+1`, `k` from
`j+1`, each below `points.length`, left at the first index triple whose body returns. -/
def searchTriples (points : List Point) : Option (Except Err FitResult) :=
  let n := points.length
  (List.range n).findSome? fun i =>
    (List.range' (i+1) (n - (i+1))).findSome? fun j =>
      (List.range' (j+1) (n - (j+1))).findSome? fun k =>
        tripleBody points i j k

/-- The function `cFromThreePoints(points)` (mode B). -/
def cFromThreePoints (points : List Point) : Except Err FitResult :=
  if points.length < 3 then .error .needThreePoints
  else
    match searchTriples points with
    | some r => r
    | none => .error .allTriplesDegenerate

/-- The function `cFromRootsAndPoint(roots, point)` (mode A). -/
def cFromRootsAndPoint (roots : List Root) (point : Point) : Except Err Fraction :=
  match roots with
  | root1 :: root2 :: _ =>
    let r1 := root1.r
    let r2 := root2.r
    let x0 := point.x
    let y0 := point.y
    let denom := (x0 - r1) * (x0 - r2)
    match reduceFrac y0 denom with
    | .error e => .error e
    | .ok aFrac =>
      let num := aFrac.num * r1 * r2
      let den := aFrac.den
      reduceFrac num den
  | _ => .error .needTwoRoots

/-! ## Notions used to state the specification of the decoder -/

/-- The value of a digit character as the specification reads it: `0`-`9` stand for 0..9 and
the letters `a`-`z`, in either case, for 10..35; no other character is a digit. -/
def charValue? (c : Char) : Option Nat :=
  if '0' ≤ c ∧ c ≤ '9' then some (c.toNat - '0'.toNat)
  else if 'a' ≤ c ∧ c ≤ 'z' then some (c.toNat - 'a'.toNat + 10)
  else if 'A' ≤ c ∧ c ≤ 'Z' then some (c.toNat - 'A'.toNat + 10)
  else none

/-- The digit value of a character, `0` for a character that is no digit. -/
def charValue (c : Char) : Nat := (charValue? c).getD 0

/-- A character is a valid digit for base `b` when it is a digit of value below `b`. -/
def validChar (b : Nat) (c : Char) : Bool :=
  match charValue? c with
  | some v => decide (v < b)
  | none => false

/-- A text without one optional leading sign. -/
def stripSign : List Char → List Char
  | [] => []
  | c :: rest => if c = '+' ∨ c = '-' then rest else c :: rest

/-- The code points of the characters `+`, `-`, `0`-`9`, `A`-`Z`, `a`-`z`. -/
def plainCode (n : Nat) : Prop :=
  n = 43 ∨ n = 45 ∨ (48 ≤ n ∧ n ≤ 57) ∨ (65 ≤ n ∧ n ≤ 90) ∨ (97 ≤ n ∧ n ≤ 122)

instance (n : Nat) : Decidable (plainCode n) := by
  unfold plainCode
  infer_instance

/-- The sign announced by a text: `-1` when it starts with `-`, else `1`. -/
def signOf (s : List Char) : Int := if s.head? = some '-' then -1 else 1

/-- Positional value of the digits `vals`, most significant first:
the sum over positions `i` of `vals[i] * b^(n-1-i)`. -/
def positional (b : Nat) (vals : List Nat) : Int :=
  ∑ i in Finset.range vals.length, (vals.getD i 0 : Int) * (b : Int) ^ (vals.length - 1 - i)

/-! ## The encoder of the round-trip property -/

/-- Modelled from the spec: the digit character written for the digit value `d`, the inverse
of the decoder's digit alphabet (`0`-`9`, then `a`-`z`). The repository has no encoder. -/
def digitChar (d : Nat) : Char :=
  if d < 10 then Char.ofNat (d + 48) else Char.ofNat (d - 10 + 97)

/-- Modelled from the spec: the base-`b` numeral of a natural number, most significant digit
first, `0` written as the single digit `0` ("re-encoding to the same base"; the repository
has no encoder). -/
def encodeNat (b n : Nat) : List Char :=
  if n = 0 then ['0'] else (Nat.digits b n).reverse.map digitChar

/-- Modelled from the spec: the base-`b` numeral of an integer, a `-` in front of the numeral
of its absolute value when it is negative (the repository has no encoder). -/
def encodeInt (b : Nat) (v : Int) : List Char :=
  if v < 0 then '-' :: encodeNat b v.natAbs else encodeNat b v.natAbs

/-- The canonical form of a valid text: lower case, no `+`, no leading zeros (a single `0`
when all digits are zero), and a `-` only in front of a non-zero numeral. -/
def canonicalText (l : List Char) : List Char :=
  let ds := ((stripSign l).map Char.toLower).dropWhile (fun c => c == '0')
  if ds = [] then ['0'] else if l.head? = some '-' then '-' :: ds else ds

/-! ## Notions used to state the specification of the solvers -/

/-- The value `detA` that `cFromThreePoints` computes for the points `p1`, `p2`, `p3`. -/
def detA (p1 p2 p3 : Point) : Int :=
  det3 ![![p1.x*p1.x, p1.x, 1], ![p2.x*p2.x, p2.x, 1], ![p3.x*p3.x, p3.x, 1]]

/-- The value `detAc` that `cFromThreePoints` computes for the points `p1`, `p2`, `p3`. -/
def detAc (p1 p2 p3 : Point) : Int :=
  det3 ![![p1.x*p1.x, p1.x, p1.y], ![p2.x*p2.x, p2.x, p2.y], ![p3.x*p3.x, p3.x, p3.y]]

/-- Lexicographic order on index triples: `(i', j', k')` comes before `(i, j, k)`. -/
def lexLt (i' j' k' i j k : Nat) : Prop :=
  i' < i ∨ (i' = i ∧ (j' < j ∨ (j' = j ∧ k' < k)))

instance (i' j' k' i j k : Nat) : Decidable (lexLt i' j' k' i j k) := by
  unfold lexLt
  infer_instance

/-- The number of distinct x-values among the points. -/
def distinctXs (points : List Point) : Nat :=
  (points.map fun p => p.x).toFinset.card

/-! ## Key selection of `loadRoots` -/

/-- The value of `sel` in `loadRoots`. `keys` is the filtered and sorted key list, `useK` the
flag, and `k` is `Number(rootsJSON.keys.k)` when `rootsJSON.keys.k` is defined (`none` when
the document has no `keys.k`): `keys.slice(0, Math.max(2, k))` when both are present, all
keys otherwise. -/
def loadRoots_sel (keys : List String) (useK : Bool) (k : Option Nat) : List String :=
  match useK, k with
  | true, some k => keys.take (max 2 k)
  | _, _ => keys

/-! ## The loop of `bgcd`, pass by pass -/

/-- One pass through the body of the loop of `bgcd`: `(a, b)` becomes `(b, a % b)`. -/
def bgcdBody (s : Int × Int) : Int × Int := (s.2, Int.tmod s.1 s.2)

/-- The state `(a, b)` of the loop of `bgcd` after at most `n` passes: a pass is made only
while `b !== 0n`. -/
def bgcdRun : Nat → Int × Int → Int × Int
  | 0, s => s
  | n + 1, s => if s.2 = 0 then s else bgcdRun n (bgcdBody s)

/-! ## Lemmas on `bgcd` and `reduceFrac` -/

theorem natAbs_tmod (a b : Int) : (Int.tmod a b).natAbs = a.natAbs % b.natAbs := by
  cases a <;> cases b <;> simp [Int.tmod, Int.natAbs_neg] <;> norm_cast

theorem bgcdLoop_natAbs (a b : Int) : (bgcdLoop a b).natAbs = Int.gcd a b := by
  induction a, b using bgcdLoop.induct with
  | case1 a => rw [bgcdLoop]; simp
  | case2 a b h ih =>
    rw [bgcdLoop, if_neg h, ih]
    simp only [Int.gcd, natAbs_tmod]
    rw [Nat.gcd_comm a.natAbs, Nat.gcd_rec b.natAbs a.natAbs]
    exact Nat.gcd_comm _ _

theorem bgcdLoop_nonneg (a b : Int) (ha : 0 ≤ a) (hb : 0 ≤ b) : 0 ≤ bgcdLoop a b := by
  induction a, b using bgcdLoop.induct with
  | case1 a => rw [bgcdLoop]; simpa using ha
  | case2 a b h ih =>
    rw [bgcdLoop, if_neg h]
    exact ih hb (Int.tmod_nonneg b ha)

theorem bgcd_eq_gcd (a b : Int) : bgcd a b = (Int.gcd a b : Int) := by
  unfold bgcd
  have ha : 0 ≤ (if a < 0 then -a else a) := by split <;> omega
  have hb : 0 ≤ (if b < 0 then -b else b) := by split <;> omega
  have h1 := bgcdLoop_natAbs (if a < 0 then -a else a) (if b < 0 then -b else b)
  have h2 := bgcdLoop_nonneg _ _ ha hb
  have h3 : Int.gcd (if a < 0 then -a else a) (if b < 0 then -b else b) = Int.gcd a b := by
    split <;> split <;> simp
  rw [h3] at h1
  rw [← h1]
  exact (Int.natAbs_of_nonneg h2).symm

theorem reduceFrac_eq_divInt (num den : Int) (h : den ≠ 0) :
    reduceFrac num den =
      .ok { num := (Rat.divInt num den).num, den := ((Rat.divInt num den).den : Int) } := by
  have hg : ∀ n d : Int, Int.gcd (if d < 0 then -n else n) (if d < 0 then -d else d)
      = Int.gcd n d := by
    intro n d; split <;> simp
  have hn : (if den < 0 then -num else num) = den.sign * num := by
    rcases lt_trichotomy den 0 with hd | hd | hd
    · rw [if_pos hd, Int.sign_eq_neg_one_of_neg hd]; ring
    · exact absurd hd h
    · rw [if_neg (by omega), Int.sign_eq_one_of_pos hd]; ring
  have hd : (if den < 0 then -den else den) = (den.natAbs : Int) := by
    split <;> omega
  unfold reduceFrac
  rw [if_neg h]
  simp only [bgcd_eq_gcd, hg]
  rw [Rat.num_mk, Rat.den_mk, if_neg h, hn, hd]
  have d1 : ((Int.gcd num den : Nat) : Int) ∣ den.sign * num :=
    Dvd.dvd.mul_left (Int.gcd_dvd_left) _
  have d2 : ((Int.gcd num den : Nat) : Int) ∣ (den.natAbs : Int) :=
    Int.dvd_natAbs.mpr Int.gcd_dvd_right
  rw [Int.tdiv_eq_ediv_of_dvd d1, Int.tdiv_eq_ediv_of_dvd d2]
  simp [Int.ofNat_ediv]

theorem reduceFrac_eq_iff (a b c d : Int) (hb : b ≠ 0) (hd : d ≠ 0) :
    reduceFrac a b = reduceFrac c d ↔ a * d = c * b := by
  rw [reduceFrac_eq_divInt a b hb, reduceFrac_eq_divInt c d hd, ← Rat.divInt_eq_iff hb hd]
  constructor
  · intro h
    injection h with h
    injection h with h1 h2
    exact Rat.ext h1 (by exact_mod_cast h2)
  · intro h
    rw [h]

theorem reduceFrac_eq_div (num den : Int) (h : den ≠ 0) :
    reduceFrac num den =
      .ok { num := (if den < 0 then -num else num) / (Int.gcd num den : Nat),
            den := (den.natAbs : Int) / (Int.gcd num den : Nat) } := by
  have hn : (if den < 0 then -num else num) = den.sign * num := by
    rcases lt_trichotomy den 0 with hd | hd | hd
    · rw [if_pos hd, Int.sign_eq_neg_one_of_neg hd]; ring
    · exact absurd hd h
    · rw [if_neg (by omega), Int.sign_eq_one_of_pos hd]; ring
  rw [reduceFrac_eq_divInt num den h, Rat.num_mk, Rat.den_mk, if_neg h, hn]
  simp [Int.ofNat_ediv]

theorem reduceFrac_ok (num den : Int) (f : Fraction) (h : reduceFrac num den = .ok f) :
    den ≠ 0 ∧ 0 < f.den ∧ Int.gcd f.num f.den = 1 ∧ (f.num : ℚ) / (f.den : ℚ) = num / den := by
  have hne : den ≠ 0 := by
    intro h0
    simp [reduceFrac, h0] at h
  rw [reduceFrac_eq_divInt num den hne] at h
  injection h with h
  subst h
  refine ⟨hne, ?_, ?_, ?_⟩
  · show (0 : Int) < ((Rat.divInt num den).den : Int)
    exact_mod_cast (Rat.divInt num den).den_pos
  · show Int.gcd (Rat.divInt num den).num ((Rat.divInt num den).den : Int) = 1
    simpa [Int.gcd] using (Rat.divInt num den).reduced
  · show (((Rat.divInt num den).num : Int) : ℚ) / (((Rat.divInt num den).den : Int) : ℚ) = _
    rw [← Rat.divInt_eq_div num den]
    exact_mod_cast Rat.num_div_den (Rat.divInt num den)

theorem reduceFrac_one (c : Int) : reduceFrac c 1 = .ok { num := c, den := 1 } := by
  rw [reduceFrac_eq_div c 1 (by decide)]
  simp [Int.gcd]

theorem det3_rows (a b c d e f g h i : Int) :
    det3 ![![a, b, c], ![d, e, f], ![g, h, i]]
      = a*e*i + b*f*g + c*d*h - c*e*g - a*f*h - b*d*i := rfl

/-! ## Lemmas on the triple search -/

theorem tripleBody_some (points : List Point) (i j k : Nat) (r : Except Err FitResult)
    (h : tripleBody points i j k = some r) :
    ∃ p1 p2 p3 f, points[i]? = some p1 ∧ points[j]? = some p2 ∧ points[k]? = some p3 ∧
      det3 ![![p1.x*p1.x, p1.x, 1], ![p2.x*p2.x, p2.x, 1], ![p3.x*p3.x, p3.x, 1]] ≠ 0 ∧
      reduceFrac
        (det3 ![![p1.x*p1.x, p1.x, p1.y], ![p2.x*p2.x, p2.x, p2.y], ![p3.x*p3.x, p3.x, p3.y]])
        (det3 ![![p1.x*p1.x, p1.x, 1], ![p2.x*p2.x, p2.x, 1], ![p3.x*p3.x, p3.x, 1]]) = .ok f ∧
      r = .ok { frac := f, used := [p1.k, p2.k, p3.k] } := by
  unfold tripleBody at h
  split at h
  · rename_i p1 p2 p3 h1 h2 h3
    simp only at h
    split at h
    · rename_i hdet
      obtain ⟨f, hf⟩ : ∃ f, reduceFrac
          (det3 ![![p1.x*p1.x, p1.x, p1.y], ![p2.x*p2.x, p2.x, p2.y], ![p3.x*p3.x, p3.x, p3.y]])
          (det3 ![![p1.x*p1.x, p1.x, 1], ![p2.x*p2.x, p2.x, 1], ![p3.x*p3.x, p3.x, 1]])
          = .ok f := ⟨_, reduceFrac_eq_divInt _ _ hdet⟩
      rw [hf] at h
      simp only [Option.some.injEq] at h
      exact ⟨p1, p2, p3, f, h1, h2, h3, hdet, hf, h.symm⟩
    · exact absurd h (by simp)
  · exact absurd h (by simp)

theorem searchTriples_some (points : List Point) (r : Except Err FitResult)
    (h : searchTriples points = some r) :
    ∃ i j k, i < j ∧ j < k ∧ k < points.length ∧ tripleBody points i j k = some r := by
  unfold searchTriples at h
  obtain ⟨i, _, hi⟩ := List.exists_of_findSome?_eq_some h
  obtain ⟨j, hj, hj'⟩ := List.exists_of_findSome?_eq_some hi
  obtain ⟨k, hk, hk'⟩ := List.exists_of_findSome?_eq_some hj'
  rw [List.mem_range'_1] at hj hk
  exact ⟨i, j, k, by omega, by omega, by omega, hk'⟩

theorem cFromThreePoints_ok (points : List Point) (res : FitResult)
    (h : cFromThreePoints points = .ok res) :
    3 ≤ points.length ∧ searchTriples points = some (.ok res) := by
  unfold cFromThreePoints at h
  by_cases hlen : points.length < 3
  · simp [hlen] at h
  · rw [if_neg hlen] at h
    cases hr : searchTriples points with
    | none => rw [hr] at h; exact absurd h (by simp)
    | some r =>
      rw [hr] at h
      simp only at h
      exact ⟨by omega, by rw [h]⟩

/-! ## Claims on `reduceFrac` -/

/-- C3: for every integer `num` and non-zero integer `den`, `reduceFrac(num, den)` returns a
fraction `{n, d}` with `d > 0` and `gcd(|n|, d) = 1`. -/
theorem reduceFrac_lowest_terms (num den : Int) (h : den ≠ 0) :
    ∃ f : Fraction, reduceFrac num den = .ok f ∧ 0 < f.den ∧ Int.gcd |f.num| f.den = 1 := by
  refine ⟨_, reduceFrac_eq_divInt num den h, ?_, ?_⟩
  · show (0 : Int) < ((Rat.divInt num den).den : Int)
    exact_mod_cast (Rat.divInt num den).den_pos
  · show Int.gcd |(Rat.divInt num den).num| ((Rat.divInt num den).den : Int) = 1
    simpa [Int.gcd, Int.natAbs_abs] using (Rat.divInt num den).reduced

theorem reduceFrac_lowest_terms_witness :
    ∃ f : Fraction, reduceFrac 12 (-18) = .ok f ∧ 0 < f.den ∧ Int.gcd |f.num| f.den = 1 :=
  reduceFrac_lowest_terms 12 (-18) (by decide)

/-- C4: `reduceFrac(num, den)` fails, with the division-by-zero error, exactly when `den = 0`;
for non-zero `den` it returns `{sign(den)*num / g, |den| / g}` with `g = gcd(|num|, |den|)`,
where `g` divides both `sign(den)*num` and `|den|` (so truncating and exact division agree),
the result has the value of the input (`n * den = num * d`), and `reduceFrac(0, den) = {0, 1}`. -/
theorem reduceFrac_spec (num den : Int) :
    ((∃ e, reduceFrac num den = .error e) ↔ den = 0) ∧
    (reduceFrac num den = .error .divisionByZero ↔ den = 0) ∧
    (den ≠ 0 →
      ((Int.gcd |num| |den| : Nat) : Int) ∣ Int.sign den * num ∧
      ((Int.gcd |num| |den| : Nat) : Int) ∣ |den| ∧
      reduceFrac num den =
        .ok { num := Int.tdiv (Int.sign den * num) (Int.gcd |num| |den| : Nat),
              den := Int.tdiv |den| (Int.gcd |num| |den| : Nat) } ∧
      reduceFrac num den =
        .ok { num := Int.sign den * num / (Int.gcd |num| |den| : Nat),
              den := |den| / (Int.gcd |num| |den| : Nat) } ∧
      (Int.sign den * num / (Int.gcd |num| |den| : Nat)) * den
        = num * (|den| / (Int.gcd |num| |den| : Nat)) ∧
      reduceFrac 0 den = .ok { num := 0, den := 1 }) := by
  have hg : Int.gcd |num| |den| = Int.gcd num den := by simp [Int.gcd, Int.natAbs_abs]
  have d1 : ((Int.gcd num den : Nat) : Int) ∣ den.sign * num :=
    Dvd.dvd.mul_left (Int.gcd_dvd_left) _
  have d2 : ((Int.gcd num den : Nat) : Int) ∣ |den| :=
    (dvd_abs _ _).mpr Int.gcd_dvd_right
  refine ⟨?_, ?_, ?_⟩
  · constructor
    · rintro ⟨e, he⟩
      by_contra hne
      rw [reduceFrac_eq_divInt num den hne] at he
      cases he
    · intro h0
      exact ⟨.divisionByZero, by simp [reduceFrac, h0]⟩
  · constructor
    · intro he
      by_contra hne
      rw [reduceFrac_eq_divInt num den hne] at he
      cases he
    · intro h0
      simp [reduceFrac, h0]
  · intro hne
    rw [hg]
    have key : reduceFrac num den =
        .ok { num := Int.sign den * num / (Int.gcd num den : Nat),
              den := |den| / (Int.gcd num den : Nat) } := by
      rw [reduceFrac_eq_divInt num den hne, Rat.num_mk, Rat.den_mk, if_neg hne,
        Int.abs_eq_natAbs]
      simp [Int.ofNat_ediv]
    refine ⟨d1, d2, ?_, key, ?_, ?_⟩
    · rw [Int.tdiv_eq_ediv_of_dvd d1, Int.tdiv_eq_ediv_of_dvd d2]; exact key
    · obtain ⟨u, hu⟩ := d1
      obtain ⟨v, hv⟩ := d2
      have hgpos : ((Int.gcd num den : Nat) : Int) ≠ 0 := by
        have : Int.gcd num den ≠ 0 := by
          intro h0
          exact hne (Int.gcd_eq_zero_iff.mp h0).2
        exact_mod_cast this
      rw [hu, hv, Int.mul_ediv_cancel_left _ hgpos, Int.mul_ediv_cancel_left _ hgpos]
      have hs : den.sign * den = |den| := by
        rcases lt_trichotomy den 0 with hd | hd | hd
        · rw [Int.sign_eq_neg_one_of_neg hd, abs_of_neg hd]; ring
        · exact absurd hd hne
        · rw [Int.sign_eq_one_of_pos hd, abs_of_pos hd]; ring
      have h1 : ((Int.gcd num den : Nat) : Int) * (u * den) = ((Int.gcd num den : Nat) : Int) * (num * v) := by
        calc ((Int.gcd num den : Nat) : Int) * (u * den)
            = (((Int.gcd num den : Nat) : Int) * u) * den := by ring
          _ = den.sign * num * den := by rw [← hu]
          _ = num * (den.sign * den) := by ring
          _ = num * |den| := by rw [hs]
          _ = ((Int.gcd num den : Nat) : Int) * (num * v) := by rw [hv]; ring
      exact mul_left_cancel₀ hgpos h1
    · rw [reduceFrac_eq_divInt 0 den hne]
      simp

theorem reduceFrac_spec_witness :
    reduceFrac 12 (-18) = .ok { num := -2, den := 3 } := by
  have h := (reduceFrac_spec 12 (-18)).2.2 (by decide)
  rw [h.2.2.2.1]
  simp [Int.gcd]
  decide

/-- C5: `reduceFrac` yields a canonical representative of every rational value: for all
integers `a`, `c` and non-zero integers `b`, `d`, `reduceFrac(a, b) = reduceFrac(c, d)` if and
only if `a*d = c*b`. -/
theorem reduceFrac_canonical (a b c d : Int) (hb : b ≠ 0) (hd : d ≠ 0) :
    reduceFrac a b = reduceFrac c d ↔ a * d = c * b :=
  reduceFrac_eq_iff a b c d hb hd

theorem reduceFrac_canonical_witness :
    (reduceFrac 2 4 = reduceFrac (-3) (-6) ↔ (2 : Int) * (-6) = (-3) * 4) :=
  reduceFrac_canonical 2 4 (-3) (-6) (by decide) (by decide)

/-- C6: scale invariance: for all integers `a`, non-zero `b` and non-zero `k` (of either sign),
`reduceFrac(a*k, b*k) = reduceFrac(a, b)`. -/
theorem reduceFrac_scale (a b k : Int) (hb : b ≠ 0) (hk : k ≠ 0) :
    reduceFrac (a * k) (b * k) = reduceFrac a b := by
  rw [reduceFrac_eq_iff (a * k) (b * k) a b (mul_ne_zero hb hk) hb]
  ring

theorem reduceFrac_scale_witness :
    reduceFrac (2 * (-3)) (4 * (-3)) = reduceFrac 2 4 :=
  reduceFrac_scale 2 4 (-3) (by decide) (by decide)

/-! ## Lemmas on characters and on the decoder -/

theorem char_eq_of_toNat (c : Char) (n : Nat) (h : c.toNat = n) : c = Char.ofNat n := by
  rw [← h, Char.ofNat_toNat]

theorem toLower_toNat (c : Char) :
    c.toLower.toNat = if 65 ≤ c.toNat ∧ c.toNat ≤ 90 then c.toNat + 32 else c.toNat := by
  by_cases h : 65 ≤ c.toNat ∧ c.toNat ≤ 90
  · rw [if_pos h]
    obtain ⟨h1, h2⟩ := h
    have hc := char_eq_of_toNat c c.toNat rfl
    generalize c.toNat = n at *
    subst hc
    interval_cases n <;> rfl
  · rw [if_neg h]
    unfold Char.toLower
    simp only [ge_iff_le]
    rw [if_neg h]

theorem charValue?_toNat (c : Char) :
    charValue? c =
      if 48 ≤ c.toNat ∧ c.toNat ≤ 57 then some (c.toNat - 48)
      else if 97 ≤ c.toNat ∧ c.toNat ≤ 122 then some (c.toNat - 97 + 10)
      else if 65 ≤ c.toNat ∧ c.toNat ≤ 90 then some (c.toNat - 65 + 10)
      else none := rfl

theorem digitOf_toNat (c : Char) :
    digitOf c =
      if 48 ≤ c.toNat ∧ c.toNat ≤ 57 then .ok (c.toNat - 48)
      else if 97 ≤ c.toNat ∧ c.toNat ≤ 122 then .ok (c.toNat - 97 + 10)
      else .error .invalidDigit := rfl

theorem validChar_iff (b : Nat) (c : Char) :
    validChar b c = true ↔ ∃ v, charValue? c = some v ∧ v < b := by
  unfold validChar
  cases charValue? c <;> simp

theorem validChar_plain (b : Nat) (c : Char) (h : validChar b c = true) :
    plainCode c.toNat ∧ c.toNat ≠ 43 ∧ c.toNat ≠ 45 := by
  obtain ⟨v, hv, -⟩ := (validChar_iff b c).mp h
  rw [charValue?_toNat] at hv
  unfold plainCode
  split at hv
  · omega
  split at hv
  · omega
  split at hv
  · omega
  · exact absurd hv (by simp)

theorem validChar_digitOf (b : Nat) (c : Char) (h : validChar b c = true) :
    digitOf c.toLower = .ok (charValue c) ∧ charValue c < b := by
  obtain ⟨v, hv, hlt⟩ := (validChar_iff b c).mp h
  have hval : charValue c = v := by simp [charValue, hv]
  rw [hval]
  refine ⟨?_, hlt⟩
  rw [digitOf_toNat]
  have hl := toLower_toNat c
  rw [charValue?_toNat] at hv
  by_cases h1 : 48 ≤ c.toNat ∧ c.toNat ≤ 57
  · rw [if_pos h1] at hv
    rw [if_neg (by omega)] at hl
    rw [hl, if_pos h1]
    simpa using hv
  · rw [if_neg h1] at hv
    by_cases h2 : 97 ≤ c.toNat ∧ c.toNat ≤ 122
    · rw [if_pos h2] at hv
      rw [if_neg (by omega)] at hl
      rw [hl, if_neg h1, if_pos h2]
      simpa using hv
    · rw [if_neg h2] at hv
      by_cases h3 : 65 ≤ c.toNat ∧ c.toNat ≤ 90
      · rw [if_pos h3] at hv
        rw [if_pos h3] at hl
        rw [hl, if_neg (by omega), if_pos (by omega)]
        have : c.toNat + 32 - 97 + 10 = c.toNat - 65 + 10 := by omega
        rw [this]
        simpa using hv
      · rw [if_neg h3] at hv
        exact absurd hv (by simp)

theorem plain_not_whiteSpace (c : Char) (h : plainCode c.toNat) : isJsWhiteSpace c = false := by
  unfold plainCode at h
  unfold isJsWhiteSpace
  simp only [Bool.or_eq_false_iff, Bool.and_eq_false_imp, decide_eq_false_iff_not,
    decide_eq_true_eq]
  omega

theorem plain_toLower (c : Char) (h : plainCode c.toNat) : jsToLowerChar c = [c.toLower] := by
  unfold plainCode at h
  unfold jsToLowerChar
  rw [if_neg (by omega), if_neg (by omega)]

theorem jsTrim_of_no_whiteSpace (l : List Char) (h : ∀ c ∈ l, isJsWhiteSpace c = false) :
    jsTrim l = l := by
  have key : ∀ l : List Char, (∀ c ∈ l, isJsWhiteSpace c = false) →
      l.dropWhile isJsWhiteSpace = l := by
    intro l hl
    cases l with
    | nil => rfl
    | cons a t => rw [List.dropWhile_cons_of_neg (by simp [hl a (by simp)])]
  unfold jsTrim
  rw [key l h, key l.reverse (fun c hc => h c (List.mem_reverse.mp hc)), List.reverse_reverse]

theorem jsToLowerCase_of_plain (l : List Char) (h : ∀ c ∈ l, plainCode c.toNat) :
    jsToLowerCase l = l.map Char.toLower := by
  unfold jsToLowerCase
  induction l with
  | nil => rfl
  | cons a t ih =>
    rw [List.flatMap_cons, plain_toLower a (h a (by simp)), ih (fun c hc => h c (by simp [hc]))]
    rfl

theorem normalize_of_plain (l : List Char) (h : ∀ c ∈ l, plainCode c.toNat) :
    jsToLowerCase (jsTrim l) = l.map Char.toLower := by
  rw [jsTrim_of_no_whiteSpace l (fun c hc => plain_not_whiteSpace c (h c hc)),
    jsToLowerCase_of_plain l h]

theorem parseLoop_valid (b : Nat) (ds : List Char) (h : ∀ c ∈ ds, validChar b c = true) :
    ∀ acc : Int, parseLoop b acc (ds.map Char.toLower)
      = .ok ((ds.map charValue).foldl (fun (a : Int) (d : Nat) => a * (b : Int) + (d : Int)) acc) := by
  induction ds with
  | nil => intro acc; rfl
  | cons c t ih =>
    intro acc
    obtain ⟨hd, hlt⟩ := validChar_digitOf b c (h c (by simp))
    simp only [List.map_cons, parseLoop, hd, List.foldl_cons]
    rw [if_neg (by omega)]
    exact ih (fun c hc => h c (by simp [hc])) _

theorem foldl_positional (b : Nat) (vals : List Nat) :
    ∀ acc : Int, vals.foldl (fun (a : Int) (d : Nat) => a * (b : Int) + (d : Int)) acc
      = acc * (b : Int) ^ vals.length + positional b vals := by
  induction vals with
  | nil => intro acc; simp [positional]
  | cons v t ih =>
    intro acc
    rw [List.foldl_cons, ih]
    unfold positional
    rw [List.length_cons, Finset.sum_range_succ']
    simp only [List.getD_cons_succ, List.getD_cons_zero, Nat.add_sub_cancel, Nat.sub_zero]
    have : ∀ i ∈ Finset.range t.length,
        (t.getD i 0 : Int) * (b : Int) ^ (t.length - (i + 1))
          = (t.getD i 0 : Int) * (b : Int) ^ (t.length - 1 - i) := by
      intro i _
      congr 2
      omega
    rw [Finset.sum_congr rfl this]
    ring

theorem char_eq_iff_toNat (c d : Char) : c = d ↔ c.toNat = d.toNat := by
  constructor
  · intro h; rw [h]
  · intro h
    rw [← Char.ofNat_toNat c, ← Char.ofNat_toNat d, h]

theorem toLower_eq_plus (c : Char) : c.toLower = '+' ↔ c = '+' := by
  rw [char_eq_iff_toNat, char_eq_iff_toNat c, toLower_toNat]
  have : ('+' : Char).toNat = 43 := rfl
  rw [this]
  split <;> omega

theorem toLower_eq_minus (c : Char) : c.toLower = '-' ↔ c = '-' := by
  rw [char_eq_iff_toNat, char_eq_iff_toNat c, toLower_toNat]
  have : ('-' : Char).toNat = 45 := rfl
  rw [this]
  split <;> omega

theorem plain_of_toLower_eq (c d : Char) (h : c.toLower = d.toLower)
    (hd : plainCode d.toNat) : plainCode c.toNat := by
  have h1 := toLower_toNat c
  have h2 := toLower_toNat d
  rw [h] at h1
  rw [h1] at h2
  unfold plainCode at hd ⊢
  split at h2 <;> split at h2 <;> omega

theorem stripSign_cons (a : Char) (t : List Char) :
    stripSign (a :: t) = if a = '+' ∨ a = '-' then t else a :: t := rfl

theorem plain_of_valid_text (b : Nat) (l : List Char)
    (h : ∀ c ∈ stripSign l, validChar b c = true) : ∀ c ∈ l, plainCode c.toNat := by
  cases l with
  | nil => intro c hc; exact absurd hc (List.not_mem_nil c)
  | cons a t =>
    intro c hc
    rw [stripSign_cons] at h
    by_cases ha : a = '+' ∨ a = '-'
    · rw [if_pos ha] at h
      rcases List.mem_cons.mp hc with rfl | hc
      · rcases ha with rfl | rfl
        · exact Or.inl rfl
        · exact Or.inr (Or.inl rfl)
      · exact (validChar_plain b c (h c hc)).1
    · rw [if_neg ha] at h
      exact (validChar_plain b c (h c hc)).1

theorem plain_of_map_toLower_eq (l l' : List Char)
    (hmap : l'.map Char.toLower = l.map Char.toLower) (h : ∀ c ∈ l, plainCode c.toNat) :
    ∀ c ∈ l', plainCode c.toNat := by
  intro c hc
  have hmem : c.toLower ∈ l.map Char.toLower := by
    rw [← hmap]
    exact List.mem_map_of_mem _ hc
  obtain ⟨d, hd, hdc⟩ := List.mem_map.mp hmem
  exact plain_of_toLower_eq c d hdc.symm (h d hd)

theorem parse_of_lowered (text : String) (b : Nat) (c : Char) (t : List Char)
    (h : jsToLowerCase (jsTrim text.toList) = c :: t) :
    parseBigIntFromBase text b =
      match parseLoop b 0 (if c = '+' then t else if c = '-' then t else c :: t) with
      | .error e => .error e
      | .ok acc => .ok ((if c = '+' then 1 else if c = '-' then -1 else 1) * acc) := by
  unfold parseBigIntFromBase
  simp only [h]

theorem jsToLowerCase_no_upper (l : List Char) :
    ∀ c ∈ jsToLowerCase l, ¬ (65 ≤ c.toNat ∧ c.toNat ≤ 90) := by
  intro c hc
  unfold jsToLowerCase at hc
  obtain ⟨a, -, hca⟩ := List.mem_flatMap.mp hc
  unfold jsToLowerChar at hca
  split at hca
  · rw [List.mem_singleton] at hca
    subst hca
    decide
  split at hca
  · simp only [List.mem_cons, List.mem_singleton, List.not_mem_nil, or_false] at hca
    rcases hca with rfl | rfl <;> decide
  · rw [List.mem_singleton] at hca
    subst hca
    rw [toLower_toNat]
    split <;> omega

theorem validChar_iff_digitOf (b : Nat) (c : Char) (hc : ¬ (65 ≤ c.toNat ∧ c.toNat ≤ 90)) :
    validChar b c = true ↔ ∃ d, digitOf c = .ok d ∧ d < b := by
  rw [validChar_iff, charValue?_toNat, digitOf_toNat]
  by_cases h1 : 48 ≤ c.toNat ∧ c.toNat ≤ 57
  · simp [h1]
  · by_cases h2 : 97 ≤ c.toNat ∧ c.toNat ≤ 122
    · simp [h1, h2]
    · simp [h1, h2, hc]

theorem parseLoop_cases (b : Nat) (s : List Char) : ∀ acc : Int,
    ((∃ v, parseLoop b acc s = .ok v) ∧ ∀ c ∈ s, ∃ d, digitOf c = .ok d ∧ d < b) ∨
    ((parseLoop b acc s = .error .invalidDigit ∨ parseLoop b acc s = .error .digitGeBase) ∧
      ∃ c ∈ s, ¬ ∃ d, digitOf c = .ok d ∧ d < b) := by
  induction s with
  | nil =>
    intro acc
    exact Or.inl ⟨⟨acc, rfl⟩, fun c hc => absurd hc (List.not_mem_nil c)⟩
  | cons a t ih =>
    intro acc
    cases hd : digitOf a with
    | error e =>
      have he : e = .invalidDigit := by
        rw [digitOf_toNat] at hd
        split at hd
        · exact absurd hd (by simp)
        split at hd
        · exact absurd hd (by simp)
        · injection hd with hd; exact hd.symm
      subst he
      refine Or.inr ⟨Or.inl (by simp [parseLoop, hd]), a, by simp, ?_⟩
      rintro ⟨d, hd', -⟩
      rw [hd] at hd'
      exact absurd hd' (by simp)
    | ok d =>
      by_cases hlt : d < b
      · have hstep : parseLoop b acc (a :: t) = parseLoop b (acc * (b : Int) + (d : Int)) t := by
          simp only [parseLoop, hd]
          rw [if_neg (by omega)]
        rw [hstep]
        rcases ih (acc * (b : Int) + (d : Int)) with ⟨hv, hall⟩ | ⟨herr, c, hc, hbad⟩
        · refine Or.inl ⟨hv, ?_⟩
          intro c hc
          rcases List.mem_cons.mp hc with rfl | hc
          · exact ⟨d, hd, hlt⟩
          · exact hall c hc
        · exact Or.inr ⟨herr, c, List.mem_cons_of_mem _ hc, hbad⟩
      · refine Or.inr ⟨Or.inr ?_, a, by simp, ?_⟩
        · simp only [parseLoop, hd]
          rw [if_pos (by omega)]
        · rintro ⟨d', hd', hlt'⟩
          rw [hd] at hd'
          injection hd' with hd'
          omega

theorem parseLoop_error_iff (b : Nat) (s : List Char) (acc : Int) :
    (parseLoop b acc s = .error .invalidDigit ∨ parseLoop b acc s = .error .digitGeBase) ↔
      ∃ c ∈ s, ¬ ∃ d, digitOf c = .ok d ∧ d < b := by
  rcases parseLoop_cases b s acc with ⟨⟨v, hv⟩, hall⟩ | ⟨herr, hbad⟩
  · constructor
    · rw [hv]
      rintro (h | h) <;> exact absurd h (by simp)
    · rintro ⟨c, hc, hbad⟩
      exact absurd (hall c hc) hbad
  · exact ⟨fun _ => hbad, fun _ => herr⟩

theorem toNat_ofNat_small (m : Nat) (h : m < 55296) : (Char.ofNat m).toNat = m := by
  unfold Char.ofNat
  rw [dif_pos (Or.inl h)]
  rfl

theorem digitChar_charValue (b : Nat) (c : Char) (h : validChar b c = true) :
    digitChar (charValue c) = c.toLower := by
  obtain ⟨v, hv, -⟩ := (validChar_iff b c).mp h
  have hval : charValue c = v := by simp [charValue, hv]
  rw [hval, char_eq_iff_toNat, toLower_toNat]
  rw [charValue?_toNat] at hv
  unfold digitChar
  by_cases h1 : 48 ≤ c.toNat ∧ c.toNat ≤ 57
  · rw [if_pos h1] at hv
    injection hv with hv
    subst hv
    rw [if_pos (by omega), toNat_ofNat_small _ (by omega), if_neg (by omega)]
    omega
  · rw [if_neg h1] at hv
    by_cases h2 : 97 ≤ c.toNat ∧ c.toNat ≤ 122
    · rw [if_pos h2] at hv
      injection hv with hv
      subst hv
      rw [if_neg (by omega), toNat_ofNat_small _ (by omega), if_neg (by omega)]
      omega
    · rw [if_neg h2] at hv
      by_cases h3 : 65 ≤ c.toNat ∧ c.toNat ≤ 90
      · rw [if_pos h3] at hv
        injection hv with hv
        subst hv
        rw [if_neg (by omega), toNat_ofNat_small _ (by omega), if_pos h3]
        omega
      · rw [if_neg h3] at hv
        exact absurd hv (by simp)

theorem charValue_eq_zero_iff (b : Nat) (c : Char) (h : validChar b c = true) :
    charValue c = 0 ↔ c.toLower = '0' := by
  obtain ⟨v, hv, -⟩ := (validChar_iff b c).mp h
  have hval : charValue c = v := by simp [charValue, hv]
  rw [hval, char_eq_iff_toNat, toLower_toNat]
  have h0 : ('0' : Char).toNat = 48 := rfl
  rw [h0]
  rw [charValue?_toNat] at hv
  split at hv
  · injection hv with hv
    split <;> omega
  split at hv
  · injection hv with hv
    split <;> omega
  split at hv
  · injection hv with hv
    split <;> omega
  · exact absurd hv (by simp)

theorem natFold_eq_ofDigits (b : Nat) (vals : List Nat) : ∀ acc : Nat,
    vals.foldl (fun a d => a * b + d) acc = acc * b ^ vals.length + Nat.ofDigits b vals.reverse := by
  induction vals with
  | nil => intro acc; simp
  | cons v t ih =>
    intro acc
    rw [List.foldl_cons, ih, List.reverse_cons, Nat.ofDigits_append, Nat.ofDigits_singleton,
      List.length_reverse, List.length_cons]
    ring

theorem intFold_eq_natFold (b : Nat) (vals : List Nat) : ∀ acc : Nat,
    vals.foldl (fun (a : Int) (d : Nat) => a * (b : Int) + (d : Int)) (acc : Int)
      = ((vals.foldl (fun a d => a * b + d) acc : Nat) : Int) := by
  induction vals with
  | nil => intro acc; rfl
  | cons v t ih =>
    intro acc
    rw [List.foldl_cons, List.foldl_cons, ← ih]
    push_cast
    rfl

theorem encode_digits (b : Nat) (hb : 2 ≤ b) (ds : List Char)
    (h : ∀ c ∈ ds, validChar b c = true) :
    ((ds.map Char.toLower).dropWhile (fun c => c == '0') = [] →
      (ds.map charValue).foldl (fun a d => a * b + d) 0 = 0) ∧
    ((ds.map Char.toLower).dropWhile (fun c => c == '0') ≠ [] →
      (ds.map charValue).foldl (fun a d => a * b + d) 0 ≠ 0 ∧
      (Nat.digits b ((ds.map charValue).foldl (fun a d => a * b + d) 0)).reverse.map digitChar
        = (ds.map Char.toLower).dropWhile (fun c => c == '0')) := by
  induction ds with
  | nil => simp
  | cons c t ih =>
    have hc := h c (by simp)
    have ht : ∀ c ∈ t, validChar b c = true := fun c hc => h c (by simp [hc])
    by_cases h0 : c.toLower = '0'
    · have hv : charValue c = 0 := (charValue_eq_zero_iff b c hc).mpr h0
      have hd : ((c :: t).map Char.toLower).dropWhile (fun c => c == '0')
          = (t.map Char.toLower).dropWhile (fun c => c == '0') := by
        rw [List.map_cons, List.dropWhile_cons_of_pos (by simp [h0])]
      have hf : ((c :: t).map charValue).foldl (fun a d => a * b + d) 0
          = (t.map charValue).foldl (fun a d => a * b + d) 0 := by
        rw [List.map_cons, List.foldl_cons, hv, Nat.zero_mul, Nat.add_zero]
      rw [hd, hf]
      exact ih ht
    · have hv : charValue c ≠ 0 := fun hz => h0 ((charValue_eq_zero_iff b c hc).mp hz)
      have hd : ((c :: t).map Char.toLower).dropWhile (fun c => c == '0')
          = (c :: t).map Char.toLower := by
        rw [List.map_cons, List.dropWhile_cons_of_neg (by simp [h0])]
      have hdig : Nat.digits b (((c :: t).map charValue).foldl (fun a d => a * b + d) 0)
          = ((c :: t).map charValue).reverse := by
        rw [natFold_eq_ofDigits]
        simp only [Nat.zero_mul, Nat.zero_add]
        apply Nat.digits_ofDigits b (by omega)
        · intro l hl
          rw [List.mem_reverse, List.mem_map] at hl
          obtain ⟨a, ha, rfl⟩ := hl
          exact (validChar_digitOf b a (h a ha)).2
        · intro hne
          rw [List.getLast_reverse]
          simpa using hv
      rw [hd]
      refine ⟨by simp, fun _ => ⟨?_, ?_⟩⟩
      · intro hz
        rw [hz] at hdig
        simp at hdig
      · rw [hdig, List.reverse_reverse, List.map_map]
        apply List.map_congr_left
        intro a ha
        exact digitChar_charValue b a (h a ha)

theorem parseBigIntFromBase_of_valid (b : Nat) (text : String) (hne : text.toList ≠ [])
    (hvalid : ∀ c ∈ stripSign text.toList, validChar b c = true) :
    parseBigIntFromBase text b
      = .ok (signOf text.toList * ((stripSign text.toList).map charValue).foldl
          (fun (a : Int) (d : Nat) => a * (b : Int) + (d : Int)) 0) := by
  have hplain := plain_of_valid_text b text.toList hvalid
  have hnorm := normalize_of_plain text.toList hplain
  obtain ⟨a, t, hl⟩ := List.exists_cons_of_ne_nil hne
  have hnorm' : jsToLowerCase (jsTrim text.toList) = a.toLower :: t.map Char.toLower := by
    rw [hnorm, hl, List.map_cons]
  rw [parse_of_lowered text b _ _ hnorm']
  rw [hl] at hvalid
  rw [hl]
  simp only [toLower_eq_plus, toLower_eq_minus]
  rw [stripSign_cons] at hvalid ⊢
  unfold signOf
  by_cases h1 : a = '+'
  · subst h1
    rw [if_pos (Or.inl rfl)] at hvalid ⊢
    have hs := parseLoop_valid b t hvalid 0
    simp [hs]
  · by_cases h2 : a = '-'
    · subst h2
      rw [if_pos (Or.inr rfl)] at hvalid ⊢
      have hs := parseLoop_valid b t hvalid 0
      simp [hs]
    · rw [if_neg (by simp [h1, h2])] at hvalid ⊢
      have hs := parseLoop_valid b (a :: t) hvalid 0
      rw [List.map_cons] at hs
      simp [h1, h2, hs]

/-! ## Claims on the decoder -/

/-- C7: for every base `b` and every non-empty text made of an optional leading `+` or `-`
followed by characters `0`-`9`, `a`-`z` (either case) whose digit values are all below `b`,
`parseBigIntFromBase(text, b)` returns `sign * (sum over positions i of digit_i * b^(n-1-i))`,
which is the left-to-right fold `acc = acc*b + digit` started at `0`; the sign is `-1`
exactly when the text starts with `-`; and a text that differs only in letter case decodes
to the same result. -/
theorem parseBigIntFromBase_value (b : Nat) (text : String) (hne : text.toList ≠ [])
    (hvalid : ∀ c ∈ stripSign text.toList, validChar b c = true) :
    parseBigIntFromBase text b
      = .ok (signOf text.toList * positional b ((stripSign text.toList).map charValue)) ∧
    positional b ((stripSign text.toList).map charValue)
      = ((stripSign text.toList).map charValue).foldl
          (fun (a : Int) (d : Nat) => a * (b : Int) + (d : Int)) 0 ∧
    (signOf text.toList = -1 ↔ text.toList.head? = some '-') ∧
    (signOf text.toList = 1 ↔ text.toList.head? ≠ some '-') ∧
    ∀ text' : String, text'.toList.map Char.toLower = text.toList.map Char.toLower →
      parseBigIntFromBase text' b = parseBigIntFromBase text b := by
  have hplain := plain_of_valid_text b text.toList hvalid
  have hnorm := normalize_of_plain text.toList hplain
  have hfold : positional b ((stripSign text.toList).map charValue)
      = ((stripSign text.toList).map charValue).foldl
          (fun (a : Int) (d : Nat) => a * (b : Int) + (d : Int)) 0 := by
    rw [foldl_positional]; ring
  refine ⟨?_, hfold, ?_, ?_, ?_⟩
  · rw [hfold]
    exact parseBigIntFromBase_of_valid b text hne hvalid
  · unfold signOf
    split <;> simp_all
  · unfold signOf
    split <;> simp_all
  · intro text' hmap
    have hplain' := plain_of_map_toLower_eq _ _ hmap hplain
    unfold parseBigIntFromBase
    rw [hnorm, normalize_of_plain _ hplain', hmap]

theorem parseBigIntFromBase_value_witness :
    parseBigIntFromBase "ff" 16 = .ok 255 ∧ parseBigIntFromBase "-ff" 16 = .ok (-255) ∧
    parseBigIntFromBase "-FF" 16 = parseBigIntFromBase "-ff" 16 := by
  have h1 := parseBigIntFromBase_value 16 "ff" (by decide) (by decide)
  have h2 := parseBigIntFromBase_value 16 "-ff" (by decide) (by decide)
  refine ⟨?_, ?_, h2.2.2.2.2 "-FF" (by decide)⟩
  · rw [h1.1]; rfl
  · rw [h2.1]; rfl

/-- C8, as stated, fails at the text `" 1"` in base 10: the space is not a digit, yet the
decoder trims it away and returns `1`. -/
theorem parseBigIntFromBase_invalid_digit_counterexample :
    ¬ ((parseBigIntFromBase " 1" 10 = .error .invalidDigit ∨
          parseBigIntFromBase " 1" 10 = .error .digitGeBase) ↔
        ∃ c ∈ stripSign " 1".toList, validChar 10 c = false) := by
  have hrun : parseBigIntFromBase " 1" 10 = .ok 1 := rfl
  rw [hrun]
  intro h
  have hbad : ∃ c ∈ stripSign " 1".toList, validChar 10 c = false := ⟨' ', by decide, by decide⟩
  rcases h.mpr hbad with h | h <;> exact absurd h (by simp)

/-- C8 (amended): for every base `b` and every text, `parseBigIntFromBase(text, b)` fails with
an invalid-digit error (`Invalid digit` or `Digit >= base`) if and only if, after trimming
surrounding white space, lower-casing and stripping one optional leading sign, some character
is not in `0`-`9`/`a`-`z` or has digit value `>= b`; when it does, no value is returned. -/
theorem parseBigIntFromBase_invalid_digit_iff (b : Nat) (text : String) :
    ((parseBigIntFromBase text b = .error .invalidDigit ∨
        parseBigIntFromBase text b = .error .digitGeBase) ↔
      ∃ c ∈ stripSign (jsToLowerCase (jsTrim text.toList)), validChar b c = false) ∧
    ((∃ c ∈ stripSign (jsToLowerCase (jsTrim text.toList)), validChar b c = false) →
      ∀ v, parseBigIntFromBase text b ≠ .ok v) := by
  have key : (parseBigIntFromBase text b = .error .invalidDigit ∨
        parseBigIntFromBase text b = .error .digitGeBase) ↔
      ∃ c ∈ stripSign (jsToLowerCase (jsTrim text.toList)), validChar b c = false := by
    have hup := jsToLowerCase_no_upper (jsTrim text.toList)
    cases hs : jsToLowerCase (jsTrim text.toList) with
    | nil =>
      have hrun : parseBigIntFromBase text b = .error .emptyValue := by
        unfold parseBigIntFromBase
        simp only [hs]
      rw [hrun]
      simp [stripSign]
    | cons a t =>
      rw [hs] at hup
      rw [parse_of_lowered text b a t hs, stripSign_cons]
      have hlist : (if a = '+' then t else if a = '-' then t else a :: t)
          = (if a = '+' ∨ a = '-' then t else a :: t) := by
        by_cases h1 : a = '+'
        · simp [h1]
        · by_cases h2 : a = '-'
          · simp [h2]
          · simp [h1, h2]
      rw [hlist]
      have hmem : ∀ c ∈ (if a = '+' ∨ a = '-' then t else a :: t), c ∈ a :: t := by
        intro c hc
        split at hc
        · exact List.mem_cons_of_mem _ hc
        · exact hc
      have hloop := parseLoop_error_iff b (if a = '+' ∨ a = '-' then t else a :: t) 0
      have hbridge : (∃ c ∈ (if a = '+' ∨ a = '-' then t else a :: t),
            ¬ ∃ d, digitOf c = .ok d ∧ d < b) ↔
          ∃ c ∈ (if a = '+' ∨ a = '-' then t else a :: t), validChar b c = false := by
        constructor
        · rintro ⟨c, hc, hbad⟩
          refine ⟨c, hc, ?_⟩
          rw [← Bool.not_eq_true, validChar_iff_digitOf b c (hup c (hmem c hc))]
          exact hbad
        · rintro ⟨c, hc, hbad⟩
          refine ⟨c, hc, ?_⟩
          rw [← validChar_iff_digitOf b c (hup c (hmem c hc)), hbad]
          simp
      rw [← hbridge, ← hloop]
      cases hp : parseLoop b 0 (if a = '+' ∨ a = '-' then t else a :: t) with
      | error e => simp
      | ok v => simp
  refine ⟨key, ?_⟩
  intro hbad v hv
  rcases key.mpr hbad with h | h <;> rw [hv] at h <;> exact absurd h (by simp)

theorem parseBigIntFromBase_invalid_digit_iff_witness :
    parseBigIntFromBase "g" 16 = .error .invalidDigit ∨
      parseBigIntFromBase "g" 16 = .error .digitGeBase :=
  (parseBigIntFromBase_invalid_digit_iff 16 "g").1.mpr ⟨'g', by decide, by decide⟩

/-- C9: evaluation of the decoder on the empty text and on the bare signs: the empty text is
rejected with `Empty value`, but `"+"` and `"-"`, whose digit string is empty after sign
stripping, are decoded to `0` in every base. -/
theorem parseBigIntFromBase_bare_sign (b : Nat) :
    parseBigIntFromBase "" b = .error .emptyValue ∧
    parseBigIntFromBase "+" b = .ok 0 ∧
    parseBigIntFromBase "-" b = .ok 0 :=
  ⟨rfl, rfl, rfl⟩

/-- C10, as stated, fails whatever the encoder is: `"7"` and `"007"` are valid base-10 texts
that decode to the same integer, but they differ even when signs and letter case are
disregarded, so no re-encoding of the decoded value reproduces both. -/
theorem roundTrip_counterexample :
    ¬ ∃ enc : Int → List Char, ∀ text ∈ ["7", "007"], ∀ v,
        parseBigIntFromBase text 10 = .ok v →
        (stripSign (enc v)).map Char.toLower = (stripSign text.toList).map Char.toLower := by
  rintro ⟨enc, h⟩
  have h1 := h "7" (by simp) 7 rfl
  have h2 := h "007" (by simp) 7 rfl
  rw [h1] at h2
  exact absurd h2 (by decide)

/-- C10 (amended): for every base `b ≥ 2` and every valid text (an optional sign followed by
one or more digits valid for `b`), the text decodes to an integer whose base-`b` numeral is
the text up to letter case, leading-sign normalization and leading zeros: it is the canonical
form of the text, in lower case, without `+`, without leading zeros, and with `-` only when
the value is not zero. -/
theorem roundTrip_canonical (b : Nat) (hb : 2 ≤ b) (text : String)
    (hdig : stripSign text.toList ≠ [])
    (hvalid : ∀ c ∈ stripSign text.toList, validChar b c = true) :
    ∃ v, parseBigIntFromBase text b = .ok v ∧ encodeInt b v = canonicalText text.toList := by
  have hne : text.toList ≠ [] := by
    intro h0
    rw [h0] at hdig
    exact hdig rfl
  refine ⟨_, parseBigIntFromBase_of_valid b text hne hvalid, ?_⟩
  have hcast := intFold_eq_natFold b ((stripSign text.toList).map charValue) 0
  rw [Nat.cast_zero] at hcast
  rw [hcast]
  obtain ⟨hz, hnz⟩ := encode_digits b hb (stripSign text.toList) hvalid
  generalize ((stripSign text.toList).map charValue).foldl (fun a d => a * b + d) 0 = n at *
  unfold canonicalText
  simp only
  by_cases hcd : ((stripSign text.toList).map Char.toLower).dropWhile (fun c => c == '0') = []
  · rw [if_pos hcd, hz hcd]
    simp [encodeInt, encodeNat]
  · obtain ⟨hn, henc⟩ := hnz hcd
    rw [if_neg hcd]
    have hpos : 0 < n := Nat.pos_of_ne_zero hn
    unfold signOf
    by_cases hs : text.toList.head? = some '-'
    · rw [if_pos hs, if_pos hs]
      have hneg : (-1 : Int) * (n : Int) < 0 := by omega
      have habs : ((-1 : Int) * (n : Int)).natAbs = n := by omega
      unfold encodeInt
      rw [if_pos hneg, habs]
      unfold encodeNat
      rw [if_neg hn, henc]
    · rw [if_neg hs, if_neg hs]
      have hnn : ¬ ((1 : Int) * (n : Int) < 0) := by omega
      have habs : ((1 : Int) * (n : Int)).natAbs = n := by omega
      unfold encodeInt
      rw [if_neg hnn, habs]
      unfold encodeNat
      rw [if_neg hn, henc]

theorem roundTrip_canonical_witness :
    ∃ v, parseBigIntFromBase "-00fF" 16 = .ok v ∧ encodeInt 16 v = ['-', 'f', 'f'] :=
  roundTrip_canonical 16 (by decide) "-00fF" (by decide) (by decide)

/-! ## Claims on the two solvers -/

/-- C1: whenever `cFromThreePoints` succeeds, the labels it returns are those of three points
`p1`, `p2`, `p3` of the list (at indices `i < j < k`), and the returned fraction `num/den` is
the constant coefficient of the unique quadratic through them: some rationals `a`, `b` give
`a*x^2 + b*x + num/den = y` at the three points, and every quadratic through the three points
has constant coefficient `num/den`. In particular, when all points lie on
`y = a*x^2 + b*x + c` with integers `a`, `b`, `c`, the returned fraction is `{c, 1}`. -/
theorem cFromThreePoints_constant_coefficient (points : List Point) (res : FitResult)
    (h : cFromThreePoints points = .ok res) :
    (∃ (i j k : Nat) (p1 p2 p3 : Point), i < j ∧ j < k ∧
      points[i]? = some p1 ∧ points[j]? = some p2 ∧ points[k]? = some p3 ∧
      res.used = [p1.k, p2.k, p3.k] ∧ res.frac.den ≠ 0 ∧
      (∃ a b : ℚ, ∀ p ∈ [p1, p2, p3],
        a * (p.x : ℚ)^2 + b * (p.x : ℚ) + (res.frac.num : ℚ) / (res.frac.den : ℚ) = (p.y : ℚ)) ∧
      (∀ a b c : ℚ, (∀ p ∈ [p1, p2, p3], a * (p.x : ℚ)^2 + b * (p.x : ℚ) + c = (p.y : ℚ)) →
        c = (res.frac.num : ℚ) / (res.frac.den : ℚ))) ∧
    (∀ a b c : Int, (∀ p ∈ points, p.y = a * p.x^2 + b * p.x + c) →
      res.frac = { num := c, den := 1 }) := by
  obtain ⟨-, hr⟩ := cFromThreePoints_ok points res h
  obtain ⟨i, j, k, hij, hjk, -, hbody⟩ := searchTriples_some points _ hr
  obtain ⟨p1, p2, p3, f, h1, h2, h3, hdet, hf, hres⟩ := tripleBody_some points i j k _ hbody
  injection hres with hres
  subst hres
  obtain ⟨-, hden, -, hval⟩ := reduceFrac_ok _ _ f hf
  rw [det3_rows] at hdet
  rw [det3_rows, det3_rows] at hf hval
  have hD : ((p1.x*p1.x*p2.x*1 + p1.x*1*(p3.x*p3.x) + 1*(p2.x*p2.x)*p3.x
      - 1*p2.x*(p3.x*p3.x) - p1.x*p1.x*1*p3.x - p1.x*(p2.x*p2.x)*1 : Int) : ℚ) ≠ 0 := by
    exact_mod_cast hdet
  refine ⟨⟨i, j, k, p1, p2, p3, hij, hjk, h1, h2, h3, rfl, hden.ne', ?_, ?_⟩, ?_⟩
  · refine ⟨((p1.y*p2.x*1 + p1.x*1*p3.y + 1*p2.y*p3.x
        - 1*p2.x*p3.y - p1.y*1*p3.x - p1.x*p2.y*1 : Int) : ℚ) /
        ((p1.x*p1.x*p2.x*1 + p1.x*1*(p3.x*p3.x) + 1*(p2.x*p2.x)*p3.x
        - 1*p2.x*(p3.x*p3.x) - p1.x*p1.x*1*p3.x - p1.x*(p2.x*p2.x)*1 : Int) : ℚ),
      ((p1.x*p1.x*p2.y*1 + p1.y*1*(p3.x*p3.x) + 1*(p2.x*p2.x)*p3.y
        - 1*p2.y*(p3.x*p3.x) - p1.x*p1.x*1*p3.y - p1.y*(p2.x*p2.x)*1 : Int) : ℚ) /
        ((p1.x*p1.x*p2.x*1 + p1.x*1*(p3.x*p3.x) + 1*(p2.x*p2.x)*p3.x
        - 1*p2.x*(p3.x*p3.x) - p1.x*p1.x*1*p3.x - p1.x*(p2.x*p2.x)*1 : Int) : ℚ), ?_⟩
    intro p hp
    simp only [hval]
    simp only [List.mem_cons, List.mem_singleton, List.not_mem_nil, or_false] at hp
    rcases hp with rfl | rfl | rfl <;>
    · rw [div_mul_eq_mul_div, div_mul_eq_mul_div, ← add_div, ← add_div, div_eq_iff hD]
      push_cast
      ring
  · intro a b c hfit
    simp only [hval]
    have e1 := hfit p1 (by simp)
    have e2 := hfit p2 (by simp)
    have e3 := hfit p3 (by simp)
    rw [eq_div_iff hD]
    push_cast
    rw [← e1, ← e2, ← e3]
    ring
  · intro a b c hfit
    have e1 := hfit p1 (List.getElem?_mem h1)
    have e2 := hfit p2 (List.getElem?_mem h2)
    have e3 := hfit p3 (List.getElem?_mem h3)
    have hc : reduceFrac
        (p1.x*p1.x*p2.x*p3.y + p1.x*p2.y*(p3.x*p3.x) + p1.y*(p2.x*p2.x)*p3.x
          - p1.y*p2.x*(p3.x*p3.x) - p1.x*p1.x*p2.y*p3.x - p1.x*(p2.x*p2.x)*p3.y)
        (p1.x*p1.x*p2.x*1 + p1.x*1*(p3.x*p3.x) + 1*(p2.x*p2.x)*p3.x
          - 1*p2.x*(p3.x*p3.x) - p1.x*p1.x*1*p3.x - p1.x*(p2.x*p2.x)*1)
        = reduceFrac c 1 := by
      rw [reduceFrac_eq_iff _ _ _ _ hdet (by decide), e1, e2, e3]
      ring
    rw [hc, reduceFrac_one] at hf
    injection hf with hf
    exact hf.symm

theorem cFromThreePoints_constant_coefficient_witness :
    cFromThreePoints [⟨1, 6, "1"⟩, ⟨2, 11, "2"⟩, ⟨3, 18, "3"⟩]
        = .ok { frac := { num := 3, den := 1 }, used := ["1", "2", "3"] } ∧
    ∀ a b c : Int,
      (∀ p ∈ [(⟨1, 6, "1"⟩ : Point), ⟨2, 11, "2"⟩, ⟨3, 18, "3"⟩], p.y = a * p.x^2 + b * p.x + c) →
      ({ num := 3, den := 1 } : Fraction) = { num := c, den := 1 } :=
  have hrun : cFromThreePoints [⟨1, 6, "1"⟩, ⟨2, 11, "2"⟩, ⟨3, 18, "3"⟩]
      = .ok { frac := { num := 3, den := 1 }, used := ["1", "2", "3"] } := by
    simp [cFromThreePoints, searchTriples, List.range_succ, List.range'_succ,
      List.findSome?, tripleBody, det3_rows, reduceFrac_eq_div, Int.gcd]
  ⟨hrun, (cFromThreePoints_constant_coefficient _ _ hrun).2⟩

/-- C2: for roots `r1`, `r2` (the first two of the list) and a point `(x0, y0)` with
`x0 ≠ r1` and `x0 ≠ r2`, `cFromRootsAndPoint` returns a fraction in lowest terms (`den > 0`,
`gcd(|num|, den) = 1`) of value `y0*r1*r2 / ((x0-r1)*(x0-r2))`, that is `a*r1*r2` with
`a = y0 / ((x0-r1)*(x0-r2))`; the two-step computation equals
`reduceFrac(y0*r1*r2, (x0-r1)*(x0-r2))`. -/
theorem cFromRootsAndPoint_value (root1 root2 : Root) (rest : List Root) (point : Point)
    (h1 : point.x ≠ root1.r) (h2 : point.x ≠ root2.r) :
    cFromRootsAndPoint (root1 :: root2 :: rest) point
      = reduceFrac (point.y * root1.r * root2.r)
          ((point.x - root1.r) * (point.x - root2.r)) ∧
    ∃ f : Fraction, cFromRootsAndPoint (root1 :: root2 :: rest) point = .ok f ∧
      0 < f.den ∧ Int.gcd |f.num| f.den = 1 ∧
      (f.num : ℚ) / (f.den : ℚ)
        = ((point.y : ℚ) * root1.r * root2.r) / ((point.x - root1.r) * (point.x - root2.r)) ∧
      (f.num : ℚ) / (f.den : ℚ)
        = ((point.y : ℚ) / ((point.x - root1.r) * (point.x - root2.r))) * root1.r * root2.r := by
  have hD : (point.x - root1.r) * (point.x - root2.r) ≠ 0 :=
    mul_ne_zero (sub_ne_zero.mpr h1) (sub_ne_zero.mpr h2)
  obtain ⟨aFrac, ha⟩ : ∃ aFrac, reduceFrac point.y
      ((point.x - root1.r) * (point.x - root2.r)) = .ok aFrac :=
    ⟨_, reduceFrac_eq_divInt point.y _ hD⟩
  obtain ⟨-, hapos, -, haval⟩ := reduceFrac_ok _ _ _ ha
  have hstep : cFromRootsAndPoint (root1 :: root2 :: rest) point
      = reduceFrac (point.y * root1.r * root2.r)
          ((point.x - root1.r) * (point.x - root2.r)) := by
    simp only [cFromRootsAndPoint, ha]
    rw [reduceFrac_eq_iff _ _ _ _ hapos.ne' hD]
    have hDq : (((point.x - root1.r) * (point.x - root2.r) : Int) : ℚ) ≠ 0 := by
      exact_mod_cast hD
    have hdq : (aFrac.den : ℚ) ≠ 0 := by
      exact_mod_cast hapos.ne'
    have hx := (div_eq_div_iff hdq hDq).mp haval
    have hx' : aFrac.num * ((point.x - root1.r) * (point.x - root2.r))
        = point.y * aFrac.den := by
      exact_mod_cast hx
    calc aFrac.num * root1.r * root2.r * ((point.x - root1.r) * (point.x - root2.r))
        = (aFrac.num * ((point.x - root1.r) * (point.x - root2.r))) * root1.r * root2.r := by
          ring
      _ = point.y * root1.r * root2.r * aFrac.den := by
          rw [hx']; ring
  refine ⟨hstep, ?_⟩
  rw [hstep]
  have hf := reduceFrac_eq_divInt (point.y * root1.r * root2.r) _ hD
  obtain ⟨-, hpos, hgcd, hval⟩ := reduceFrac_ok _ _ _ hf
  refine ⟨_, hf, hpos, ?_, ?_, ?_⟩
  · simpa [Int.gcd, Int.natAbs_abs] using hgcd
  · rw [hval]; push_cast; ring
  · rw [hval]; push_cast; ring

theorem cFromRootsAndPoint_value_witness :
    cFromRootsAndPoint [⟨2, "1"⟩, ⟨3, "2"⟩] ⟨0, 12, "1"⟩ = .ok { num := 12, den := 1 } := by
  rw [(cFromRootsAndPoint_value ⟨2, "1"⟩ ⟨3, "2"⟩ [] ⟨0, 12, "1"⟩ (by decide) (by decide)).1]
  simp [reduceFrac_eq_div, Int.gcd]

/-! ## Lemmas on the order of the triple search -/

theorem findSome?_range'_first {β : Type} (f : Nat → Option β) :
    ∀ (n s : Nat) (b : β), (List.range' s n).findSome? f = some b →
      ∃ a, s ≤ a ∧ a < s + n ∧ f a = some b ∧ ∀ x, s ≤ x → x < a → f x = none := by
  intro n
  induction n with
  | zero => intro s b h; simp at h
  | succ n ih =>
    intro s b h
    rw [List.range'_succ, List.findSome?_cons] at h
    cases hs : f s with
    | some v =>
      rw [hs] at h
      simp only [Option.some.injEq] at h
      subst h
      exact ⟨s, le_refl s, by omega, hs, fun x h1 h2 => absurd h1 (by omega)⟩
    | none =>
      rw [hs] at h
      obtain ⟨a, ha1, ha2, ha3, ha4⟩ := ih (s + 1) b h
      refine ⟨a, by omega, by omega, ha3, ?_⟩
      intro x hx1 hx2
      rcases Nat.eq_or_lt_of_le hx1 with rfl | hlt
      · exact hs
      · exact ha4 x hlt hx2

theorem findSome?_range'_none {β : Type} (f : Nat → Option β) (n s : Nat) :
    (List.range' s n).findSome? f = none ↔ ∀ x, s ≤ x → x < s + n → f x = none := by
  rw [List.findSome?_eq_none_iff]
  constructor
  · intro h x h1 h2
    exact h x (List.mem_range'_1.mpr ⟨h1, h2⟩)
  · intro h x hx
    rw [List.mem_range'_1] at hx
    exact h x hx.1 hx.2

theorem searchTriples_eq (points : List Point) :
    searchTriples points =
      (List.range' 0 points.length).findSome? fun i =>
        (List.range' (i+1) (points.length - (i+1))).findSome? fun j =>
          (List.range' (j+1) (points.length - (j+1))).findSome? fun k =>
            tripleBody points i j k := by
  unfold searchTriples
  simp only [List.range_eq_range']

theorem searchTriples_first (points : List Point) (r : Except Err FitResult)
    (h : searchTriples points = some r) :
    ∃ i j k, i < j ∧ j < k ∧ k < points.length ∧ tripleBody points i j k = some r ∧
      ∀ i' j' k', i' < j' → j' < k' → k' < points.length → lexLt i' j' k' i j k →
        tripleBody points i' j' k' = none := by
  rw [searchTriples_eq] at h
  obtain ⟨i, -, hi2, hi3, hi4⟩ := findSome?_range'_first _ _ _ _ h
  obtain ⟨j, hj1, hj2, hj3, hj4⟩ := findSome?_range'_first _ _ _ _ hi3
  obtain ⟨k, hk1, hk2, hk3, hk4⟩ := findSome?_range'_first _ _ _ _ hj3
  refine ⟨i, j, k, by omega, by omega, by omega, hk3, ?_⟩
  intro i' j' k' hij hjk hk hlex
  rcases hlex with hlt | ⟨rfl, hlt | ⟨rfl, hlt⟩⟩
  · have h1 := hi4 i' (Nat.zero_le _) hlt
    rw [findSome?_range'_none] at h1
    have h2 := h1 j' (by omega) (by omega)
    rw [findSome?_range'_none] at h2
    exact h2 k' (by omega) (by omega)
  · have h2 := hj4 j' (by omega) hlt
    rw [findSome?_range'_none] at h2
    exact h2 k' (by omega) (by omega)
  · exact hk4 k' (by omega) hlt

theorem searchTriples_none_iff (points : List Point) :
    searchTriples points = none ↔
      ∀ i j k, i < j → j < k → k < points.length → tripleBody points i j k = none := by
  rw [searchTriples_eq, findSome?_range'_none]
  constructor
  · intro h i j k hij hjk hk
    have h1 := h i (Nat.zero_le _) (by omega)
    rw [findSome?_range'_none] at h1
    have h2 := h1 j (by omega) (by omega)
    rw [findSome?_range'_none] at h2
    exact h2 k (by omega) (by omega)
  · intro h i _ hi
    rw [findSome?_range'_none]
    intro j hj1 hj2
    rw [findSome?_range'_none]
    intro k hk1 hk2
    exact h i j k (by omega) (by omega) (by omega)

theorem tripleBody_eq (points : List Point) (i j k : Nat) (p1 p2 p3 : Point)
    (h1 : points[i]? = some p1) (h2 : points[j]? = some p2) (h3 : points[k]? = some p3) :
    tripleBody points i j k =
      if detA p1 p2 p3 ≠ 0 then
        match reduceFrac (detAc p1 p2 p3) (detA p1 p2 p3) with
        | .error e => some (.error e)
        | .ok frac => some (.ok { frac := frac, used := [p1.k, p2.k, p3.k] })
      else none := by
  unfold tripleBody detA detAc
  simp only [h1, h2, h3]

theorem tripleBody_none (points : List Point) (i j k : Nat) (p1 p2 p3 : Point)
    (h1 : points[i]? = some p1) (h2 : points[j]? = some p2) (h3 : points[k]? = some p3) :
    tripleBody points i j k = none ↔ detA p1 p2 p3 = 0 := by
  rw [tripleBody_eq points i j k p1 p2 p3 h1 h2 h3]
  by_cases hd : detA p1 p2 p3 = 0
  · simp [hd]
  · rw [if_pos hd, reduceFrac_eq_divInt _ _ hd]
    simp [hd]

theorem detA_eq (p1 p2 p3 : Point) :
    detA p1 p2 p3 = (p1.x - p2.x) * (p1.x - p3.x) * (p2.x - p3.x) := by
  unfold detA
  rw [det3_rows]
  ring

theorem detA_eq_zero_iff (p1 p2 p3 : Point) :
    detA p1 p2 p3 = 0 ↔ p1.x = p2.x ∨ p1.x = p3.x ∨ p2.x = p3.x := by
  rw [detA_eq, mul_eq_zero, mul_eq_zero, sub_eq_zero, sub_eq_zero, sub_eq_zero, or_assoc]

/-! ## Claims on the triple search -/

/-- C11: first-match tie-break. Whenever `cFromThreePoints` succeeds, it used an index triple
`i < j < k` whose `detA` is non-zero and every lexicographically earlier triple
`i' < j' < k'` has `detA = 0`; the returned fraction is `reduceFrac(detAc, detA)` of that
triple and the returned labels are those of the points `i`, `j`, `k`, in that order. -/
theorem cFromThreePoints_first_match (points : List Point) (res : FitResult)
    (h : cFromThreePoints points = .ok res) :
    ∃ (i j k : Nat) (p1 p2 p3 : Point), i < j ∧ j < k ∧ k < points.length ∧
      points[i]? = some p1 ∧ points[j]? = some p2 ∧ points[k]? = some p3 ∧
      detA p1 p2 p3 ≠ 0 ∧
      (∀ (i' j' k' : Nat) (q1 q2 q3 : Point), i' < j' → j' < k' →
        points[i']? = some q1 → points[j']? = some q2 → points[k']? = some q3 →
        lexLt i' j' k' i j k → detA q1 q2 q3 = 0) ∧
      reduceFrac (detAc p1 p2 p3) (detA p1 p2 p3) = .ok res.frac ∧
      res.used = [p1.k, p2.k, p3.k] := by
  obtain ⟨-, hr⟩ := cFromThreePoints_ok points res h
  obtain ⟨i, j, k, hij, hjk, hk, hbody, hfirst⟩ := searchTriples_first points _ hr
  obtain ⟨p1, p2, p3, f, h1, h2, h3, hdet, hf, hres⟩ := tripleBody_some points i j k _ hbody
  injection hres with hres
  subst hres
  refine ⟨i, j, k, p1, p2, p3, hij, hjk, hk, h1, h2, h3, hdet, ?_, hf, rfl⟩
  intro i' j' k' q1 q2 q3 hij' hjk' g1 g2 g3 hlex
  have hk' : k' < points.length := by
    obtain ⟨hlt, -⟩ := List.getElem?_eq_some.mp g3
    exact hlt
  exact (tripleBody_none points i' j' k' q1 q2 q3 g1 g2 g3).mp
    (hfirst i' j' k' hij' hjk' hk' hlex)

theorem cFromThreePoints_first_match_witness :
    ∃ (i j k : Nat) (p1 p2 p3 : Point), i < j ∧ j < k ∧
      k < [(⟨5, 6, "a"⟩ : Point), ⟨5, 11, "b"⟩, ⟨1, 1, "c"⟩, ⟨2, 1, "d"⟩].length ∧
      [(⟨5, 6, "a"⟩ : Point), ⟨5, 11, "b"⟩, ⟨1, 1, "c"⟩, ⟨2, 1, "d"⟩][i]? = some p1 ∧
      [(⟨5, 6, "a"⟩ : Point), ⟨5, 11, "b"⟩, ⟨1, 1, "c"⟩, ⟨2, 1, "d"⟩][j]? = some p2 ∧
      [(⟨5, 6, "a"⟩ : Point), ⟨5, 11, "b"⟩, ⟨1, 1, "c"⟩, ⟨2, 1, "d"⟩][k]? = some p3 ∧
      detA p1 p2 p3 ≠ 0 ∧
      (∀ (i' j' k' : Nat) (q1 q2 q3 : Point), i' < j' → j' < k' →
        [(⟨5, 6, "a"⟩ : Point), ⟨5, 11, "b"⟩, ⟨1, 1, "c"⟩, ⟨2, 1, "d"⟩][i']? = some q1 →
        [(⟨5, 6, "a"⟩ : Point), ⟨5, 11, "b"⟩, ⟨1, 1, "c"⟩, ⟨2, 1, "d"⟩][j']? = some q2 →
        [(⟨5, 6, "a"⟩ : Point), ⟨5, 11, "b"⟩, ⟨1, 1, "c"⟩, ⟨2, 1, "d"⟩][k']? = some q3 →
        lexLt i' j' k' i j k → detA q1 q2 q3 = 0) ∧
      reduceFrac (detAc p1 p2 p3) (detA p1 p2 p3) = .ok { num := 11, den := 6 } ∧
      ["a", "c", "d"] = [p1.k, p2.k, p3.k] :=
  cFromThreePoints_first_match
    [⟨5, 6, "a"⟩, ⟨5, 11, "b"⟩, ⟨1, 1, "c"⟩, ⟨2, 1, "d"⟩]
    { frac := { num := 11, den := 6 }, used := ["a", "c", "d"] }
    (by simp [cFromThreePoints, searchTriples, List.range_succ, List.range'_succ,
          List.findSome?, tripleBody, det3_rows, reduceFrac_eq_div, Int.gcd])

theorem detAc_on_curve (a b c : ℚ) (p1 p2 p3 : Point)
    (e1 : (p1.y : ℚ) = a * (p1.x : ℚ)^2 + b * (p1.x : ℚ) + c)
    (e2 : (p2.y : ℚ) = a * (p2.x : ℚ)^2 + b * (p2.x : ℚ) + c)
    (e3 : (p3.y : ℚ) = a * (p3.x : ℚ)^2 + b * (p3.x : ℚ) + c) :
    ((detAc p1 p2 p3 : Int) : ℚ) = c * ((detA p1 p2 p3 : Int) : ℚ) := by
  unfold detAc detA
  rw [det3_rows, det3_rows]
  push_cast
  rw [e1, e2, e3]
  ring

theorem reduceFrac_on_curve (a b c : ℚ) (p1 p2 p3 q1 q2 q3 : Point)
    (e1 : (p1.y : ℚ) = a * (p1.x : ℚ)^2 + b * (p1.x : ℚ) + c)
    (e2 : (p2.y : ℚ) = a * (p2.x : ℚ)^2 + b * (p2.x : ℚ) + c)
    (e3 : (p3.y : ℚ) = a * (p3.x : ℚ)^2 + b * (p3.x : ℚ) + c)
    (g1 : (q1.y : ℚ) = a * (q1.x : ℚ)^2 + b * (q1.x : ℚ) + c)
    (g2 : (q2.y : ℚ) = a * (q2.x : ℚ)^2 + b * (q2.x : ℚ) + c)
    (g3 : (q3.y : ℚ) = a * (q3.x : ℚ)^2 + b * (q3.x : ℚ) + c)
    (hp : detA p1 p2 p3 ≠ 0) (hq : detA q1 q2 q3 ≠ 0) :
    reduceFrac (detAc p1 p2 p3) (detA p1 p2 p3)
      = reduceFrac (detAc q1 q2 q3) (detA q1 q2 q3) := by
  rw [reduceFrac_eq_iff _ _ _ _ hp hq]
  have hP := detAc_on_curve a b c p1 p2 p3 e1 e2 e3
  have hQ := detAc_on_curve a b c q1 q2 q3 g1 g2 g3
  have : ((detAc p1 p2 p3 * detA q1 q2 q3 : Int) : ℚ)
      = ((detAc q1 q2 q3 * detA p1 p2 p3 : Int) : ℚ) := by
    push_cast
    rw [hP, hQ]
    ring
  exact_mod_cast this

/-- C12, as stated, fails on the points `(0,0)`, `(1,0)`, `(2,0)`, `(3,1)`, which lie on no
common quadratic: the triples at indices `(0,1,2)` and `(1,2,3)` are both non-degenerate, and
they give the fractions `0` and `1`. -/
theorem triples_agree_counterexample :
    ¬ (∀ (i j k i' j' k' : Nat) (p1 p2 p3 q1 q2 q3 : Point),
        i < j → j < k → i' < j' → j' < k' →
        [(⟨0, 0, "1"⟩ : Point), ⟨1, 0, "2"⟩, ⟨2, 0, "3"⟩, ⟨3, 1, "4"⟩][i]? = some p1 →
        [(⟨0, 0, "1"⟩ : Point), ⟨1, 0, "2"⟩, ⟨2, 0, "3"⟩, ⟨3, 1, "4"⟩][j]? = some p2 →
        [(⟨0, 0, "1"⟩ : Point), ⟨1, 0, "2"⟩, ⟨2, 0, "3"⟩, ⟨3, 1, "4"⟩][k]? = some p3 →
        [(⟨0, 0, "1"⟩ : Point), ⟨1, 0, "2"⟩, ⟨2, 0, "3"⟩, ⟨3, 1, "4"⟩][i']? = some q1 →
        [(⟨0, 0, "1"⟩ : Point), ⟨1, 0, "2"⟩, ⟨2, 0, "3"⟩, ⟨3, 1, "4"⟩][j']? = some q2 →
        [(⟨0, 0, "1"⟩ : Point), ⟨1, 0, "2"⟩, ⟨2, 0, "3"⟩, ⟨3, 1, "4"⟩][k']? = some q3 →
        detA p1 p2 p3 ≠ 0 → detA q1 q2 q3 ≠ 0 →
        reduceFrac (detAc p1 p2 p3) (detA p1 p2 p3)
          = reduceFrac (detAc q1 q2 q3) (detA q1 q2 q3)) := by
  intro h
  have h' := h 0 1 2 1 2 3 ⟨0, 0, "1"⟩ ⟨1, 0, "2"⟩ ⟨2, 0, "3"⟩ ⟨1, 0, "2"⟩ ⟨2, 0, "3"⟩ ⟨3, 1, "4"⟩
    (by decide) (by decide) (by decide) (by decide) rfl rfl rfl rfl rfl rfl
    (by decide) (by decide)
  have e1 : reduceFrac (detAc ⟨0, 0, "1"⟩ ⟨1, 0, "2"⟩ ⟨2, 0, "3"⟩)
      (detA ⟨0, 0, "1"⟩ ⟨1, 0, "2"⟩ ⟨2, 0, "3"⟩) = .ok { num := 0, den := 1 } := by
    simp [detA, detAc, det3_rows, reduceFrac_eq_div, Int.gcd]
  have e2 : reduceFrac (detAc ⟨1, 0, "2"⟩ ⟨2, 0, "3"⟩ ⟨3, 1, "4"⟩)
      (detA ⟨1, 0, "2"⟩ ⟨2, 0, "3"⟩ ⟨3, 1, "4"⟩) = .ok { num := 1, den := 1 } := by
    simp [detA, detAc, det3_rows, reduceFrac_eq_div, Int.gcd]
  rw [e1, e2] at h'
  exact absurd h' (by simp)

/-- C12 (amended): for every list of points that lie on one quadratic
`y = a*x^2 + b*x + c` (rational `a`, `b`, `c`), any two non-degenerate triples of points of
the list (in particular triples `i < j < k` and `i' < j' < k'`) give the same `reduceFrac(detAc, detA)`, and this is the fraction returned by
`cFromThreePoints` whenever it succeeds: the result does not depend on the triple chosen. -/
theorem triples_agree_on_curve (points : List Point) (a b c : ℚ)
    (hon : ∀ p ∈ points, (p.y : ℚ) = a * (p.x : ℚ)^2 + b * (p.x : ℚ) + c)
    (i j k i' j' k' : Nat) (p1 p2 p3 q1 q2 q3 : Point)
    (h1 : points[i]? = some p1) (h2 : points[j]? = some p2) (h3 : points[k]? = some p3)
    (g1 : points[i']? = some q1) (g2 : points[j']? = some q2) (g3 : points[k']? = some q3)
    (hp : detA p1 p2 p3 ≠ 0) (hq : detA q1 q2 q3 ≠ 0) :
    reduceFrac (detAc p1 p2 p3) (detA p1 p2 p3)
      = reduceFrac (detAc q1 q2 q3) (detA q1 q2 q3) ∧
    ∀ res, cFromThreePoints points = .ok res →
      reduceFrac (detAc p1 p2 p3) (detA p1 p2 p3) = .ok res.frac := by
  have e1 := hon p1 (List.getElem?_mem h1)
  have e2 := hon p2 (List.getElem?_mem h2)
  have e3 := hon p3 (List.getElem?_mem h3)
  refine ⟨reduceFrac_on_curve a b c p1 p2 p3 q1 q2 q3 e1 e2 e3
    (hon q1 (List.getElem?_mem g1)) (hon q2 (List.getElem?_mem g2))
    (hon q3 (List.getElem?_mem g3)) hp hq, ?_⟩
  intro res hres
  obtain ⟨-, hr⟩ := cFromThreePoints_ok points res hres
  obtain ⟨u, v, w, -, -, -, hbody⟩ := searchTriples_some points _ hr
  obtain ⟨r1, r2, r3, f, t1, t2, t3, hdet, hf, hres'⟩ := tripleBody_some points u v w _ hbody
  injection hres' with hres'
  subst hres'
  rw [← hf]
  exact reduceFrac_on_curve a b c p1 p2 p3 r1 r2 r3 e1 e2 e3
    (hon r1 (List.getElem?_mem t1)) (hon r2 (List.getElem?_mem t2))
    (hon r3 (List.getElem?_mem t3)) hp hdet

theorem triples_agree_on_curve_witness :
    reduceFrac (detAc ⟨1, 6, "1"⟩ ⟨2, 11, "2"⟩ ⟨3, 18, "3"⟩)
        (detA ⟨1, 6, "1"⟩ ⟨2, 11, "2"⟩ ⟨3, 18, "3"⟩)
      = reduceFrac (detAc ⟨2, 11, "2"⟩ ⟨3, 18, "3"⟩ ⟨4, 27, "4"⟩)
        (detA ⟨2, 11, "2"⟩ ⟨3, 18, "3"⟩ ⟨4, 27, "4"⟩) :=
  (triples_agree_on_curve
    [⟨1, 6, "1"⟩, ⟨2, 11, "2"⟩, ⟨3, 18, "3"⟩, ⟨4, 27, "4"⟩] 1 2 3
    (by
      intro p hp
      simp only [List.mem_cons, List.mem_singleton, List.not_mem_nil, or_false] at hp
      rcases hp with rfl | rfl | rfl | rfl <;> norm_num)
    0 1 2 1 2 3 ⟨1, 6, "1"⟩ ⟨2, 11, "2"⟩ ⟨3, 18, "3"⟩ ⟨2, 11, "2"⟩ ⟨3, 18, "3"⟩ ⟨4, 27, "4"⟩
    rfl rfl rfl rfl rfl rfl (by decide) (by decide)).1

/-! ## Lemmas on degenerate lists -/

theorem sorted_triple_of_distinct (points : List Point) (ia ib ic : Nat) (pa pb pc : Point)
    (ha : points[ia]? = some pa) (hb : points[ib]? = some pb) (hc : points[ic]? = some pc)
    (hab : pa.x ≠ pb.x) (hac : pa.x ≠ pc.x) (hbc : pb.x ≠ pc.x) :
    ∃ (i j k : Nat) (p1 p2 p3 : Point), i < j ∧ j < k ∧
      points[i]? = some p1 ∧ points[j]? = some p2 ∧ points[k]? = some p3 ∧
      p1.x ≠ p2.x ∧ p1.x ≠ p3.x ∧ p2.x ≠ p3.x := by
  have nab : ia ≠ ib := by
    rintro rfl
    rw [ha] at hb
    injection hb with hb
    exact hab (by rw [hb])
  have nac : ia ≠ ic := by
    rintro rfl
    rw [ha] at hc
    injection hc with hc
    exact hac (by rw [hc])
  have nbc : ib ≠ ic := by
    rintro rfl
    rw [hb] at hc
    injection hc with hc
    exact hbc (by rw [hc])
  rcases Nat.lt_or_gt_of_ne nab with h1 | h1 <;>
  rcases Nat.lt_or_gt_of_ne nac with h2 | h2 <;>
  rcases Nat.lt_or_gt_of_ne nbc with h3 | h3
  · exact ⟨ia, ib, ic, pa, pb, pc, h1, h3, ha, hb, hc, hab, hac, hbc⟩
  · exact ⟨ia, ic, ib, pa, pc, pb, h2, h3, ha, hc, hb, hac, hab, hbc.symm⟩
  · omega
  · exact ⟨ic, ia, ib, pc, pa, pb, h2, h1, hc, ha, hb, hac.symm, hbc.symm, hab⟩
  · exact ⟨ib, ia, ic, pb, pa, pc, h1, h2, hb, ha, hc, hab.symm, hbc, hac⟩
  · omega
  · exact ⟨ib, ic, ia, pb, pc, pa, h3, h2, hb, hc, ha, hbc, hab.symm, hac.symm⟩
  · exact ⟨ic, ib, ia, pc, pb, pa, h3, h1, hc, hb, ha, hbc.symm, hac.symm, hab.symm⟩

theorem distinctXs_ge_three_iff (points : List Point) :
    3 ≤ distinctXs points ↔
      ∃ (i j k : Nat) (p1 p2 p3 : Point), i < j ∧ j < k ∧
        points[i]? = some p1 ∧ points[j]? = some p2 ∧ points[k]? = some p3 ∧
        p1.x ≠ p2.x ∧ p1.x ≠ p3.x ∧ p2.x ≠ p3.x := by
  unfold distinctXs
  constructor
  · intro h
    obtain ⟨a, b, c, ha, hb, hc, hab, hac, hbc⟩ := Finset.two_lt_card_iff.mp h
    rw [List.mem_toFinset, List.mem_map] at ha hb hc
    obtain ⟨pa, hpa, rfl⟩ := ha
    obtain ⟨pb, hpb, rfl⟩ := hb
    obtain ⟨pc, hpc, rfl⟩ := hc
    obtain ⟨ia, hia⟩ := List.getElem?_of_mem hpa
    obtain ⟨ib, hib⟩ := List.getElem?_of_mem hpb
    obtain ⟨ic, hic⟩ := List.getElem?_of_mem hpc
    exact sorted_triple_of_distinct points ia ib ic pa pb pc hia hib hic hab hac hbc
  · rintro ⟨i, j, k, p1, p2, p3, -, -, h1, h2, h3, h12, h13, h23⟩
    apply Finset.two_lt_card_iff.mpr
    refine ⟨p1.x, p2.x, p3.x, ?_, ?_, ?_, h12, h13, h23⟩
    · rw [List.mem_toFinset]; exact List.mem_map_of_mem _ (List.getElem?_mem h1)
    · rw [List.mem_toFinset]; exact List.mem_map_of_mem _ (List.getElem?_mem h2)
    · rw [List.mem_toFinset]; exact List.mem_map_of_mem _ (List.getElem?_mem h3)

theorem searchTriples_none_iff_degenerate (points : List Point) :
    searchTriples points = none ↔ distinctXs points < 3 := by
  rw [searchTriples_none_iff, Nat.lt_iff_le_pred (by decide), ← not_iff_not]
  simp only [Nat.pred_eq_sub_one, not_le]
  rw [show (3 - 1 < distinctXs points) ↔ 3 ≤ distinctXs points from by omega,
    distinctXs_ge_three_iff]
  constructor
  · intro h
    push_neg at h
    obtain ⟨i, j, k, hij, hjk, hk, hne⟩ := h
    obtain ⟨p1, h1⟩ : ∃ p, points[i]? = some p :=
      ⟨_, List.getElem?_eq_getElem (by omega)⟩
    obtain ⟨p2, h2⟩ : ∃ p, points[j]? = some p :=
      ⟨_, List.getElem?_eq_getElem (by omega)⟩
    obtain ⟨p3, h3⟩ : ∃ p, points[k]? = some p :=
      ⟨_, List.getElem?_eq_getElem hk⟩
    have hd : ¬ detA p1 p2 p3 = 0 := fun hz =>
      hne ((tripleBody_none points i j k p1 p2 p3 h1 h2 h3).mpr hz)
    rw [detA_eq_zero_iff] at hd
    push_neg at hd
    exact ⟨i, j, k, p1, p2, p3, hij, hjk, h1, h2, h3, hd.1, hd.2.1, hd.2.2⟩
  · rintro ⟨i, j, k, p1, p2, p3, hij, hjk, h1, h2, h3, h12, h13, h23⟩ hall
    have hk : k < points.length := (List.getElem?_eq_some.mp h3).1
    have hz := (tripleBody_none points i j k p1 p2 p3 h1 h2 h3).mp (hall i j k hij hjk hk)
    rw [detA_eq_zero_iff] at hz
    rcases hz with hz | hz | hz
    · exact h12 hz
    · exact h13 hz
    · exact h23 hz

theorem searchTriples_some_ok (points : List Point) (r : Except Err FitResult)
    (h : searchTriples points = some r) : ∃ res, r = .ok res := by
  obtain ⟨i, j, k, -, -, -, hbody⟩ := searchTriples_some points r h
  obtain ⟨p1, p2, p3, f, -, -, -, -, -, hres⟩ := tripleBody_some points i j k r hbody
  exact ⟨_, hres⟩

/-- C13: failure conditions of `cFromThreePoints`. It fails with `Need at least 3 points`
exactly when the list has fewer than 3 points; it fails with `All triples degenerate` exactly
when the list has at least 3 points but fewer than 3 distinct x-values; in every other case
(at least 3 points and at least 3 distinct x-values) it returns a result; and it fails in no
other way. -/
theorem cFromThreePoints_failure (points : List Point) :
    (cFromThreePoints points = .error .needThreePoints ↔ points.length < 3) ∧
    (cFromThreePoints points = .error .allTriplesDegenerate ↔
      3 ≤ points.length ∧ distinctXs points < 3) ∧
    (3 ≤ points.length → 3 ≤ distinctXs points → ∃ res, cFromThreePoints points = .ok res) ∧
    (∀ e, cFromThreePoints points = .error e →
      e = .needThreePoints ∨ e = .allTriplesDegenerate) := by
  by_cases hlen : points.length < 3
  · have hrun : cFromThreePoints points = .error .needThreePoints := by
      unfold cFromThreePoints
      rw [if_pos hlen]
    rw [hrun]
    refine ⟨by simp [hlen], ?_, fun h => absurd h (by omega), ?_⟩
    · constructor
      · intro h; exact absurd h (by simp)
      · intro h; omega
    · intro e he
      injection he with he
      exact Or.inl he.symm
  · cases hs : searchTriples points with
    | none =>
      have hrun : cFromThreePoints points = .error .allTriplesDegenerate := by
        unfold cFromThreePoints
        rw [if_neg hlen, hs]
      have hdeg := (searchTriples_none_iff_degenerate points).mp hs
      rw [hrun]
      refine ⟨?_, by simp; omega, fun _ h => absurd hdeg (by omega), ?_⟩
      · constructor
        · intro h; exact absurd h (by simp)
        · intro h; exact absurd h hlen
      · intro e he
        injection he with he
        exact Or.inr he.symm
    | some r =>
      obtain ⟨res, rfl⟩ := searchTriples_some_ok points r hs
      have hrun : cFromThreePoints points = .ok res := by
        unfold cFromThreePoints
        rw [if_neg hlen, hs]
      have hdeg : ¬ distinctXs points < 3 := by
        intro hd
        rw [← searchTriples_none_iff_degenerate, hs] at hd
        exact absurd hd (by simp)
      rw [hrun]
      refine ⟨?_, ?_, fun _ _ => ⟨res, rfl⟩, ?_⟩
      · constructor
        · intro h; exact absurd h (by simp)
        · intro h; exact absurd h hlen
      · constructor
        · intro h; exact absurd h (by simp)
        · intro h; exact absurd h.2 hdeg
      · intro e he
        exact absurd he (by simp)

theorem cFromThreePoints_failure_witness :
    ∃ res, cFromThreePoints [⟨5, 6, "a"⟩, ⟨5, 11, "b"⟩, ⟨1, 1, "c"⟩, ⟨2, 1, "d"⟩] = .ok res :=
  (cFromThreePoints_failure [⟨5, 6, "a"⟩, ⟨5, 11, "b"⟩, ⟨1, 1, "c"⟩, ⟨2, 1, "d"⟩]).2.2.1
    (by decide) (by decide)

/-! ## Claims on the root and point solver -/

theorem cFromRootsAndPoint_cons (root1 root2 : Root) (rest : List Root) (point : Point) :
    cFromRootsAndPoint (root1 :: root2 :: rest) point =
      match reduceFrac point.y ((point.x - root1.r) * (point.x - root2.r)) with
      | .error e => .error e
      | .ok aFrac => reduceFrac (aFrac.num * root1.r * root2.r) aFrac.den := rfl

/-- C14: failure conditions of `cFromRootsAndPoint`. It fails with `Need at least two roots`
exactly when fewer than two roots are supplied. Given at least two roots, it fails with the
division-by-zero error exactly when `x0` equals the first or the second root, whatever `y0`
is; otherwise it returns a fraction; and the roots after the first two never change the
outcome. -/
theorem cFromRootsAndPoint_failure (roots : List Root) (point : Point) :
    (cFromRootsAndPoint roots point = .error .needTwoRoots ↔ roots.length < 2) ∧
    (∀ (root1 root2 : Root) (rest : List Root), roots = root1 :: root2 :: rest →
      (cFromRootsAndPoint roots point = .error .divisionByZero ↔
        point.x = root1.r ∨ point.x = root2.r) ∧
      ((∃ e, cFromRootsAndPoint roots point = .error e) ↔
        point.x = root1.r ∨ point.x = root2.r) ∧
      (point.x ≠ root1.r → point.x ≠ root2.r →
        ∃ f, cFromRootsAndPoint roots point = .ok f) ∧
      cFromRootsAndPoint roots point = cFromRootsAndPoint [root1, root2] point) := by
  have hcons : ∀ (root1 root2 : Root) (rest : List Root),
      (cFromRootsAndPoint (root1 :: root2 :: rest) point = .error .divisionByZero ∧
        (point.x = root1.r ∨ point.x = root2.r)) ∨
      ((∃ f, cFromRootsAndPoint (root1 :: root2 :: rest) point = .ok f) ∧
        ¬ (point.x = root1.r ∨ point.x = root2.r)) := by
    intro root1 root2 rest
    by_cases hD : (point.x - root1.r) * (point.x - root2.r) = 0
    · left
      refine ⟨?_, ?_⟩
      · rw [cFromRootsAndPoint_cons]
        have : reduceFrac point.y ((point.x - root1.r) * (point.x - root2.r))
            = .error .divisionByZero := by
          simp [reduceFrac, hD]
        rw [this]
      · rcases mul_eq_zero.mp hD with h | h
        · exact Or.inl (sub_eq_zero.mp h)
        · exact Or.inr (sub_eq_zero.mp h)
    · right
      refine ⟨?_, ?_⟩
      · obtain ⟨aFrac, ha⟩ : ∃ aFrac, reduceFrac point.y
            ((point.x - root1.r) * (point.x - root2.r)) = .ok aFrac :=
          ⟨_, reduceFrac_eq_divInt point.y _ hD⟩
        obtain ⟨-, hapos, -, -⟩ := reduceFrac_ok _ _ _ ha
        rw [cFromRootsAndPoint_cons, ha]
        exact ⟨_, reduceFrac_eq_divInt _ _ hapos.ne'⟩
      · rintro (h | h)
        · exact hD (by rw [h]; simp)
        · exact hD (by rw [h]; simp)
  refine ⟨?_, ?_⟩
  · constructor
    · intro h
      match roots, h with
      | [], _ => simp
      | [_], _ => simp
      | root1 :: root2 :: rest, h =>
        rcases hcons root1 root2 rest with ⟨he, -⟩ | ⟨⟨f, hf⟩, -⟩
        · rw [he] at h; exact absurd h (by simp)
        · rw [hf] at h; exact absurd h (by simp)
    · intro h
      match roots, h with
      | [], _ => rfl
      | [_], _ => rfl
      | _ :: _ :: _, h => exact absurd h (by simp)
  · intro root1 root2 rest hroots
    subst hroots
    refine ⟨?_, ?_, ?_, rfl⟩
    · rcases hcons root1 root2 rest with ⟨he, hx⟩ | ⟨⟨f, hf⟩, hx⟩
      · exact ⟨fun _ => hx, fun _ => he⟩
      · rw [hf]
        exact ⟨fun h => absurd h (by simp), fun h => absurd h hx⟩
    · rcases hcons root1 root2 rest with ⟨he, hx⟩ | ⟨⟨f, hf⟩, hx⟩
      · exact ⟨fun _ => hx, fun _ => ⟨_, he⟩⟩
      · rw [hf]
        exact ⟨fun ⟨e, h⟩ => absurd h (by simp), fun h => absurd h hx⟩
    · intro h1 h2
      rcases hcons root1 root2 rest with ⟨-, hx⟩ | ⟨hf, -⟩
      · rcases hx with hx | hx
        · exact absurd hx h1
        · exact absurd hx h2
      · exact hf

theorem cFromRootsAndPoint_failure_witness :
    cFromRootsAndPoint [⟨2, "1"⟩, ⟨3, "2"⟩, ⟨7, "3"⟩] ⟨2, 0, "1"⟩ = .error .divisionByZero :=
  ((cFromRootsAndPoint_failure [⟨2, "1"⟩, ⟨3, "2"⟩, ⟨7, "3"⟩] ⟨2, 0, "1"⟩).2
    ⟨2, "1"⟩ ⟨3, "2"⟩ [⟨7, "3"⟩] rfl).1.mpr (Or.inl rfl)

/-! ## Claims on `det3` -/

/-- C15: for every 3x3 integer matrix `m`, `det3(m)` is the cofactor expansion
`m11*m22*m33 + m12*m23*m31 + m13*m21*m32 - m13*m22*m31 - m11*m23*m32 - m12*m21*m33`, and this
is the determinant of `m` (`Matrix.det` over the integers); `det3` is a total function. -/
theorem det3_eq_det (m : Fin 3 → Fin 3 → Int) :
    det3 m = m 0 0 * m 1 1 * m 2 2 + m 0 1 * m 1 2 * m 2 0 + m 0 2 * m 1 0 * m 2 1
      - m 0 2 * m 1 1 * m 2 0 - m 0 0 * m 1 2 * m 2 1 - m 0 1 * m 1 0 * m 2 2 ∧
    det3 m = Matrix.det (Matrix.of m) := by
  refine ⟨rfl, ?_⟩
  rw [Matrix.det_fin_three]
  simp only [det3, Matrix.of_apply]
  ring

/-- C16: `det3` is alternating. For every 3x3 integer matrix `m` and every pair of distinct
rows `i`, `j`, swapping rows `i` and `j` negates `det3(m)`, spelled out for the three pairs
of rows as well; and every matrix with two identical rows has `det3 = 0`. -/
theorem det3_alternating (m : Fin 3 → Fin 3 → Int) :
    (∀ i j : Fin 3, i ≠ j → det3 (fun r => m (Equiv.swap i j r)) = - det3 m) ∧
    det3 ![m 1, m 0, m 2] = - det3 m ∧
    det3 ![m 2, m 1, m 0] = - det3 m ∧
    det3 ![m 0, m 2, m 1] = - det3 m ∧
    (∀ i j : Fin 3, i ≠ j → m i = m j → det3 m = 0) := by
  refine ⟨?_, ?_, ?_, ?_, ?_⟩
  · intro i j hij
    fin_cases i <;> fin_cases j <;>
      first
      | exact absurd rfl hij
      | (simp [det3, Equiv.swap_apply_def]; ring)
  · simp [det3]; ring
  · simp [det3]; ring
  · simp [det3]; ring
  · intro i j hij h
    have h0 := congrFun h 0
    have h1 := congrFun h 1
    have h2 := congrFun h 2
    fin_cases i <;> fin_cases j <;>
      first
      | exact absurd rfl hij
      | (simp only [Fin.zero_eta, Fin.mk_one, Fin.reduceFinMk] at h0 h1 h2
         simp only [det3]
         rw [h0, h1, h2]
         ring)

theorem det3_alternating_witness :
    det3 ![![1, 2, 3], ![4, 5, 6], ![1, 2, 3]] = 0 :=
  (det3_alternating ![![1, 2, 3], ![4, 5, 6], ![1, 2, 3]]).2.2.2.2 0 2 (by decide) rfl

/-- C17: the degeneracy test is exact. For all integers `x1`, `x2`, `x3` the determinant of
the matrix with rows `[xi^2, xi, 1]` equals `(x1-x2)*(x1-x3)*(x2-x3)`, so it is zero exactly
when two of the `xi` coincide. Hence the triple used by `cFromThreePoints` has pairwise
distinct x-values, and no triple with pairwise distinct x-values is skipped: every
lexicographically earlier triple `i' < j' < k'` has two equal x-values. -/
theorem degeneracy_test_exact :
    (∀ x1 x2 x3 : Int,
      det3 ![![x1*x1, x1, 1], ![x2*x2, x2, 1], ![x3*x3, x3, 1]]
        = (x1 - x2) * (x1 - x3) * (x2 - x3) ∧
      (det3 ![![x1*x1, x1, 1], ![x2*x2, x2, 1], ![x3*x3, x3, 1]] = 0 ↔
        x1 = x2 ∨ x1 = x3 ∨ x2 = x3)) ∧
    (∀ (points : List Point) (res : FitResult), cFromThreePoints points = .ok res →
      ∃ (i j k : Nat) (p1 p2 p3 : Point), i < j ∧ j < k ∧
        points[i]? = some p1 ∧ points[j]? = some p2 ∧ points[k]? = some p3 ∧
        res.used = [p1.k, p2.k, p3.k] ∧
        p1.x ≠ p2.x ∧ p1.x ≠ p3.x ∧ p2.x ≠ p3.x ∧
        ∀ (i' j' k' : Nat) (q1 q2 q3 : Point), i' < j' → j' < k' →
          points[i']? = some q1 → points[j']? = some q2 → points[k']? = some q3 →
          lexLt i' j' k' i j k → q1.x = q2.x ∨ q1.x = q3.x ∨ q2.x = q3.x) := by
  refine ⟨?_, ?_⟩
  · intro x1 x2 x3
    have hv : det3 ![![x1*x1, x1, 1], ![x2*x2, x2, 1], ![x3*x3, x3, 1]]
        = (x1 - x2) * (x1 - x3) * (x2 - x3) := by
      rw [det3_rows]; ring
    refine ⟨hv, ?_⟩
    rw [hv, mul_eq_zero, mul_eq_zero, sub_eq_zero, sub_eq_zero, sub_eq_zero, or_assoc]
  · intro points res h
    obtain ⟨-, hr⟩ := cFromThreePoints_ok points res h
    obtain ⟨i, j, k, hij, hjk, hk, hbody, hfirst⟩ := searchTriples_first points _ hr
    obtain ⟨p1, p2, p3, f, h1, h2, h3, hdet, hf, hres⟩ := tripleBody_some points i j k _ hbody
    injection hres with hres
    subst hres
    have hd : ¬ detA p1 p2 p3 = 0 := hdet
    rw [detA_eq_zero_iff] at hd
    push_neg at hd
    refine ⟨i, j, k, p1, p2, p3, hij, hjk, h1, h2, h3, rfl, hd.1, hd.2.1, hd.2.2, ?_⟩
    intro i' j' k' q1 q2 q3 hij' hjk' g1 g2 g3 hlex
    have hk' : k' < points.length := (List.getElem?_eq_some.mp g3).1
    exact (detA_eq_zero_iff q1 q2 q3).mp
      ((tripleBody_none points i' j' k' q1 q2 q3 g1 g2 g3).mp
        (hfirst i' j' k' hij' hjk' hk' hlex))

theorem degeneracy_test_exact_witness :
    ∃ (i j k : Nat) (p1 p2 p3 : Point), i < j ∧ j < k ∧
      [(⟨5, 6, "a"⟩ : Point), ⟨5, 11, "b"⟩, ⟨1, 1, "c"⟩, ⟨2, 1, "d"⟩][i]? = some p1 ∧
      [(⟨5, 6, "a"⟩ : Point), ⟨5, 11, "b"⟩, ⟨1, 1, "c"⟩, ⟨2, 1, "d"⟩][j]? = some p2 ∧
      [(⟨5, 6, "a"⟩ : Point), ⟨5, 11, "b"⟩, ⟨1, 1, "c"⟩, ⟨2, 1, "d"⟩][k]? = some p3 ∧
      ["a", "c", "d"] = [p1.k, p2.k, p3.k] ∧
      p1.x ≠ p2.x ∧ p1.x ≠ p3.x ∧ p2.x ≠ p3.x ∧
      ∀ (i' j' k' : Nat) (q1 q2 q3 : Point), i' < j' → j' < k' →
        [(⟨5, 6, "a"⟩ : Point), ⟨5, 11, "b"⟩, ⟨1, 1, "c"⟩, ⟨2, 1, "d"⟩][i']? = some q1 →
        [(⟨5, 6, "a"⟩ : Point), ⟨5, 11, "b"⟩, ⟨1, 1, "c"⟩, ⟨2, 1, "d"⟩][j']? = some q2 →
        [(⟨5, 6, "a"⟩ : Point), ⟨5, 11, "b"⟩, ⟨1, 1, "c"⟩, ⟨2, 1, "d"⟩][k']? = some q3 →
        lexLt i' j' k' i j k → q1.x = q2.x ∨ q1.x = q3.x ∨ q2.x = q3.x :=
  degeneracy_test_exact.2
    [⟨5, 6, "a"⟩, ⟨5, 11, "b"⟩, ⟨1, 1, "c"⟩, ⟨2, 1, "d"⟩]
    { frac := { num := 11, den := 6 }, used := ["a", "c", "d"] }
    (by simp [cFromThreePoints, searchTriples, List.range_succ, List.range'_succ,
          List.findSome?, tripleBody, det3_rows, reduceFrac_eq_div, Int.gcd])

/-! ## Agreement of the two modes -/

theorem cFromRootsAndPoint_eq_reduceFrac (root1 root2 : Root) (rest : List Root)
    (point : Point) (h1 : point.x ≠ root1.r) (h2 : point.x ≠ root2.r) :
    cFromRootsAndPoint (root1 :: root2 :: rest) point
      = reduceFrac (point.y * root1.r * root2.r)
          ((point.x - root1.r) * (point.x - root2.r)) := by
  have hD : (point.x - root1.r) * (point.x - root2.r) ≠ 0 :=
    mul_ne_zero (sub_ne_zero.mpr h1) (sub_ne_zero.mpr h2)
  obtain ⟨aFrac, ha⟩ : ∃ aFrac, reduceFrac point.y
      ((point.x - root1.r) * (point.x - root2.r)) = .ok aFrac :=
    ⟨_, reduceFrac_eq_divInt point.y _ hD⟩
  obtain ⟨-, hapos, -, haval⟩ := reduceFrac_ok _ _ _ ha
  rw [cFromRootsAndPoint_cons, ha]
  simp only
  rw [reduceFrac_eq_iff _ _ _ _ hapos.ne' hD]
  have hDq : (((point.x - root1.r) * (point.x - root2.r) : Int) : ℚ) ≠ 0 := by
    exact_mod_cast hD
  have hdq : (aFrac.den : ℚ) ≠ 0 := by
    exact_mod_cast hapos.ne'
  have hx := (div_eq_div_iff hdq hDq).mp haval
  have hx' : aFrac.num * ((point.x - root1.r) * (point.x - root2.r))
      = point.y * aFrac.den := by
    exact_mod_cast hx
  calc aFrac.num * root1.r * root2.r * ((point.x - root1.r) * (point.x - root2.r))
      = (aFrac.num * ((point.x - root1.r) * (point.x - root2.r))) * root1.r * root2.r := by
        ring
    _ = point.y * root1.r * root2.r * aFrac.den := by
        rw [hx']; ring

theorem cFromThreePoints_succeeds (points : List Point) (hlen : 3 ≤ points.length)
    (hdist : 3 ≤ distinctXs points) :
    ∃ res, cFromThreePoints points = .ok res ∧ searchTriples points = some (.ok res) := by
  cases hs : searchTriples points with
  | none =>
    have := (searchTriples_none_iff_degenerate points).mp hs
    omega
  | some r =>
    obtain ⟨res, rfl⟩ := searchTriples_some_ok points r hs
    refine ⟨res, ?_, rfl⟩
    unfold cFromThreePoints
    rw [if_neg (by omega), hs]

/-- C18: mode A and mode B agree. For all integers `r1`, `r2`, every rational `a`, and every
list of at least three points with integer coordinates lying on `y = a*(x-r1)*(x-r2)` that
has three pairwise distinct x-values and whose first point is at neither root,
`cFromThreePoints(points)` succeeds and `cFromRootsAndPoint([r1, r2], first point)` returns
exactly its fraction, whose value is `a*r1*r2`. -/
theorem modes_agree (r1 r2 : Int) (k1 k2 : String) (a : ℚ) (points : List Point)
    (p0 : Point) (hhead : points.head? = some p0) (hlen : 3 ≤ points.length)
    (hon : ∀ p ∈ points, (p.y : ℚ) = a * ((p.x : ℚ) - r1) * ((p.x : ℚ) - r2))
    (hdist : 3 ≤ distinctXs points) (h1 : p0.x ≠ r1) (h2 : p0.x ≠ r2) :
    ∃ res, cFromThreePoints points = .ok res ∧
      cFromRootsAndPoint [⟨r1, k1⟩, ⟨r2, k2⟩] p0 = .ok res.frac ∧
      (res.frac.num : ℚ) / (res.frac.den : ℚ) = a * r1 * r2 := by
  obtain ⟨res, hres, hr⟩ := cFromThreePoints_succeeds points hlen hdist
  obtain ⟨i, j, k, -, -, -, hbody⟩ := searchTriples_some points _ hr
  obtain ⟨p1, p2, p3, f, g1, g2, g3, hdet, hf, hres'⟩ := tripleBody_some points i j k _ hbody
  injection hres' with hres'
  subst hres'
  have hdet' : detA p1 p2 p3 ≠ 0 := hdet
  have hf' : reduceFrac (detAc p1 p2 p3) (detA p1 p2 p3) = .ok f := hf
  have hcurve : ∀ p ∈ points, (p.y : ℚ)
      = a * (p.x : ℚ)^2 + (-(a * (r1 + r2))) * (p.x : ℚ) + a * r1 * r2 := by
    intro p hp
    rw [hon p hp]
    ring
  have hAc := detAc_on_curve a (-(a * (r1 + r2))) (a * r1 * r2) p1 p2 p3
    (hcurve p1 (List.getElem?_mem g1)) (hcurve p2 (List.getElem?_mem g2))
    (hcurve p3 (List.getElem?_mem g3))
  have hp0 : p0 ∈ points := by
    cases points with
    | nil => simp at hhead
    | cons q t =>
      simp only [List.head?_cons, Option.some.injEq] at hhead
      rw [hhead]
      exact List.mem_cons_self _ _
  have hy0 := hon p0 hp0
  have hD : (p0.x - r1) * (p0.x - r2) ≠ 0 :=
    mul_ne_zero (sub_ne_zero.mpr h1) (sub_ne_zero.mpr h2)
  refine ⟨_, hres, ?_, ?_⟩
  · rw [cFromRootsAndPoint_eq_reduceFrac ⟨r1, k1⟩ ⟨r2, k2⟩ [] p0 h1 h2, ← hf']
    show reduceFrac (p0.y * r1 * r2) ((p0.x - r1) * (p0.x - r2)) = _
    rw [reduceFrac_eq_iff _ _ _ _ hD hdet']
    have : ((p0.y * r1 * r2 * detA p1 p2 p3 : Int) : ℚ)
        = ((detAc p1 p2 p3 * ((p0.x - r1) * (p0.x - r2)) : Int) : ℚ) := by
      push_cast
      rw [hAc, hy0]
      ring
    exact_mod_cast this
  · obtain ⟨-, -, -, hval⟩ := reduceFrac_ok _ _ _ hf'
    show (f.num : ℚ) / (f.den : ℚ) = a * r1 * r2
    rw [hval, hAc]
    have hq : ((detA p1 p2 p3 : Int) : ℚ) ≠ 0 := by exact_mod_cast hdet'
    field_simp

theorem modes_agree_witness :
    ∃ res, cFromThreePoints [⟨0, 12, "1"⟩, ⟨1, 4, "2"⟩, ⟨4, 4, "3"⟩] = .ok res ∧
      cFromRootsAndPoint [⟨2, "1"⟩, ⟨3, "2"⟩] ⟨0, 12, "1"⟩ = .ok res.frac ∧
      (res.frac.num : ℚ) / (res.frac.den : ℚ) = 2 * ((2 : Int) : ℚ) * ((3 : Int) : ℚ) :=
  modes_agree 2 3 "1" "2" 2 [⟨0, 12, "1"⟩, ⟨1, 4, "2"⟩, ⟨4, 4, "3"⟩] ⟨0, 12, "1"⟩ rfl
    (by decide)
    (by
      intro p hp
      simp only [List.mem_cons, List.mem_singleton, List.not_mem_nil, or_false] at hp
      rcases hp with rfl | rfl | rfl <;> norm_num)
    (by decide) (by decide) (by decide)

/-! ## Claim on the key selection of `loadRoots` -/

/-- C19: evaluation of the key selection of `loadRoots` under `--use-k`. With `keys.k = k` the
code keeps the first `max(2, k)` keys, not the first `min(k, 2)`: for three keys it keeps two
keys when `k = 1` and all three when `k = 3`. -/
theorem loadRoots_sel_max :
    (∀ (keys : List String) (k : Nat),
      loadRoots_sel keys true (some k) = keys.take (max 2 k)) ∧
    loadRoots_sel ["1", "2", "3"] true (some 1) = ["1", "2"] ∧
    loadRoots_sel ["1", "2", "3"] true (some 3) = ["1", "2", "3"] ∧
    loadRoots_sel ["1", "2", "3"] true (some 1) ≠ ["1", "2", "3"].take (min 1 2) ∧
    loadRoots_sel ["1", "2", "3"] true (some 3) ≠ ["1", "2", "3"].take (min 3 2) :=
  ⟨fun _ _ => rfl, rfl, rfl, by decide, by decide⟩

/-! ## Claim on `bgcd` -/

theorem bgcdRun_eq (n : Nat) : ∀ a b : Int, b.natAbs ≤ n →
    bgcdRun n (a, b) = (bgcdLoop a b, 0) := by
  induction n with
  | zero =>
    intro a b hb
    have hb0 : b = 0 := Int.natAbs_eq_zero.mp (Nat.le_zero.mp hb)
    subst hb0
    rw [bgcdLoop]
    simp [bgcdRun]
  | succ n ih =>
    intro a b hb
    by_cases hb0 : b = 0
    · subst hb0
      rw [bgcdLoop]
      simp [bgcdRun]
    · have hlt : (Int.tmod a b).natAbs ≤ n := by
        rw [natAbs_tmod]
        have := Nat.mod_lt a.natAbs (Int.natAbs_pos.mpr hb0)
        omega
      rw [bgcdLoop, if_neg hb0, ← ih b (Int.tmod a b) hlt]
      simp [bgcdRun, bgcdBody, hb0]

/-- C20: `bgcd` is total and correct. For all integers `a`, `b` the loop, started at
`(|a|, |b|)`, reaches `b = 0` after at most `|b|` passes with `a = bgcd(a, b)`; the result
is the non-negative greatest common divisor of `|a|` and `|b|`, with `bgcd(a, 0) = |a|` and
`bgcd(0, 0) = 0`; so the divisor `g` that `reduceFrac(a, b)` computes is not zero when
`b ≠ 0`. -/
theorem bgcd_total_correct (a b : Int) :
    (∃ n, n ≤ b.natAbs ∧ bgcdRun n (|a|, |b|) = (bgcd a b, 0)) ∧
    bgcd a b = (Nat.gcd a.natAbs b.natAbs : Int) ∧
    0 ≤ bgcd a b ∧
    bgcd a 0 = |a| ∧
    bgcd 0 0 = 0 ∧
    (b ≠ 0 → bgcd (if b < 0 then -a else a) (if b < 0 then -b else b) ≠ 0) := by
  have habs : ∀ z : Int, (if z < 0 then -z else z) = |z| := by
    intro z
    split
    · rw [abs_of_neg (by assumption)]
    · rw [abs_of_nonneg (by omega)]
  refine ⟨⟨b.natAbs, le_refl _, ?_⟩, ?_, ?_, ?_, ?_, ?_⟩
  · rw [bgcdRun_eq b.natAbs |a| |b| (by rw [Int.natAbs_abs])]
    unfold bgcd
    simp only [habs]
  · rw [bgcd_eq_gcd]; rfl
  · rw [bgcd_eq_gcd]; exact Int.ofNat_nonneg _
  · rw [bgcd_eq_gcd, Int.gcd_zero_right, Int.abs_eq_natAbs]
  · rw [bgcd_eq_gcd]; rfl
  · intro hb
    rw [bgcd_eq_gcd]
    intro h0
    have h1 : Int.gcd (if b < 0 then -a else a) (if b < 0 then -b else b) = 0 := by
      exact_mod_cast h0
    have h2 := (Int.gcd_eq_zero_iff.mp h1).2
    split at h2 <;> omega

theorem bgcd_total_correct_witness :
    bgcd (if (-18 : Int) < 0 then -12 else 12) (if (-18 : Int) < 0 then -(-18) else -18) ≠ 0 :=
  (bgcd_total_correct 12 (-18)).2.2.2.2.2 (by decide)

end SolveC
